import Mathlib

/-!
# Verification of the site-generator packaging and rendering pipeline

A shallow embedding of the record-normalization and template-rendering code of
the `ponderrr/site-generator` repository:

* `packager/package_site.py` — `load_json`, `guess_title_from_md`, `clean_md`,
  `build_record`, `write_site_jsonl`, `main`;
* `drivers/generate_pages_ollama.py` — `render`, `parse_front_matter`, `main`.

Python strings are modelled as `List Char` (`Str`), JSON values as the
inductive `JVal` (numbers as `Int`; the artifacts the claims exercise carry no
floats), Python dictionaries as association lists in insertion order, and the
file system as a partial map from paths to file text.  Python `or` is
`pyOr` over Python truthiness, and runtime type errors (calling `.get` on a
non-mapping, iterating a non-iterable) are modelled with `Except PyErr`.
-/

set_option maxHeartbeats 1000000

namespace SiteGen

/-- Python strings, modelled as lists of characters. -/
abbrev Str := List Char

/-- Python `str.strip()` whitespace (space, tab, newline, carriage return,
vertical tab, form feed). -/
def pyWs (c : Char) : Bool :=
  c = ' ' || c = '\t' || c = '\n' || c = '\r' || c = '\x0b' || c = '\x0c'

/-- Python `str.strip()`: drop leading and trailing whitespace. -/
def pyStrip (s : Str) : Str :=
  ((s.dropWhile pyWs).reverse.dropWhile pyWs).reverse

/-- Split a character list at every occurrence of `c` (like Python
`str.split(c)`): the result is the list of separated chunks, never empty. -/
def splitOnChar (c : Char) : Str → List Str
  | [] => [[]]
  | x :: xs =>
    if x = c then [] :: splitOnChar c xs
    else
      match splitOnChar c xs with
      | [] => [[x]]
      | l :: ls => (x :: l) :: ls

/-- JSON values, as produced by `json.loads`: numbers restricted to integers
(the packager's artifacts hold no floats in any claim under test). -/
inductive JVal where
  | null
  | bool (b : Bool)
  | num (n : Int)
  | str (s : Str)
  | arr (xs : List JVal)
  | obj (kvs : List (Str × JVal))

/-- A Python dictionary with string keys, in insertion order. -/
abbrev Dict := List (Str × JVal)

/-- Python truthiness of a JSON value (`None`, `False`, `0`, `""`, `[]`, `{}`
are falsy, everything else truthy). -/
def truthy : JVal → Bool
  | .null => false
  | .bool b => b
  | .num n => n ≠ 0
  | .str s => !s.isEmpty
  | .arr xs => !xs.isEmpty
  | .obj kvs => !kvs.isEmpty

/-- Python `a or b` (with `a`, `b` already evaluated JSON values). -/
def pyOr (a b : JVal) : JVal := if truthy a then a else b

/-- Python `d.get(k)`: the value under `k`, or `None` when absent. -/
def pyGet (d : Dict) (k : Str) : JVal :=
  match d.lookup k with
  | some v => v
  | none => .null

/-- Python `d.get(k, dflt)`. -/
def pyGetD (d : Dict) (k : Str) (dflt : JVal) : JVal :=
  match d.lookup k with
  | some v => v
  | none => dflt

/-- Runtime errors the embedded Python can raise. -/
inductive PyErr where
  | fileNotFound
  | attributeError
  | typeError
deriving DecidableEq

/-! ## Key and literal strings used by the packager -/
def sId : Str := "id".data

def sUrl : Str := "url".data

def sTitle : Str := "title".data

def sPageType : Str := "page_type".data

def sScores : Str := "scores".data

def sQuality : Str := "quality".data

def sQualityScore : Str := "quality_score".data

def sReadability : Str := "readability".data

def sSeo : Str := "seo".data

def sSeoScore : Str := "seo_score".data

def sFlesch : Str := "flesch".data

def sFleschScore : Str := "flesch_score".data

def sStructure : Str := "structure".data

def sImages : Str := "images".data

def sLinks : Str := "links".data

def sWordCount : Str := "word_count".data

def sReadingTime : Str := "reading_time_minutes".data

def sSections : Str := "sections".data

def sRawMarkdown : Str := "raw_markdown".data

def sRecommendations : Str := "recommendations".data

def sRelatedPages : Str := "related_pages".data

def sLabel : Str := "label".data

def sText : Str := "text".data

def sName : Str := "name".data

def sContent : Str := "content".data

def sType : Str := "type".data

def sSectionWord : Str := "section".data

def sOther : Str := "other".data

def sAnalysis : Str := "analysis".data

def sMetrics : Str := "metrics".data

def sClassification : Str := "classification".data

/-! ## `clean_md` (package_site.py lines 35–38)

`md = re.sub(r"\n\x7b3,\x7d", "\n\n", md); return md.strip()`: every maximal
run of three or more newline characters becomes exactly two newlines, then the
result is stripped. -/
/-- What a finished newline run of length `n` substitutes to under
`re.sub(r"\n\x7b3,\x7d", "\n\n", ...)`: runs of three or more become two
newlines, shorter runs stay as they are. -/
def nlRunOut (n : Nat) : Str := List.replicate (min n 2) '\n'

/-- Left-to-right scan implementing the substitution: `n` counts the pending
run of consecutive newlines, flushed through `nlRunOut` at every non-newline
character and at the end of the text. -/
def collapseGo (n : Nat) : Str → Str
  | [] => nlRunOut n
  | c :: rest =>
    if c = '\n' then collapseGo (n + 1) rest
    else nlRunOut n ++ c :: collapseGo 0 rest

/-- The `re.sub(r"\n\x7b3,\x7d", "\n\n", ...)` pass: every maximal run of
three or more newlines collapses to exactly two; shorter runs are untouched. -/
def collapseNl (s : Str) : Str := collapseGo 0 s

/-- `clean_md`. -/
def cleanMd (md : Str) : Str := pyStrip (collapseNl md)

/-! ## `guess_title_from_md` (package_site.py lines 29–33)

`re.search(pat, md, re.M)` over the patterns `^#\s+(.+)$` then `^##\s+(.+)$`.
With `re.M` the anchors are line starts, but `\s+` also matches newline
characters, so a match may capture text on a later line than its `#`; `re.M`
also lets `$` match just before any newline.  The search tries each line
start in order and the first anchor that admits a match wins; at one anchor
the greedy `\s+`/`(.+)` backtracking resolves as `matchHeading` below (this
semantics was cross-checked against the reference engine exhaustively on
short inputs). -/
/-- Consume exactly `n` leading `#` characters. -/
def dropHashes : Nat → Str → Option Str
  | 0, rest => some rest
  | n + 1, '#' :: rest => dropHashes n rest
  | _ + 1, _ => none

/-- The last character of `w` that is not a newline, if any. -/
def lastNonNl (w : Str) : Option Char :=
  w.foldl (fun acc c => if c = '\n' then acc else some c) none

/-- One anchored attempt of `^#..#\s+(.+)$` at a line start.  After the `#`s
there must be at least one whitespace character; `\s+` greedily takes the
maximal whitespace run `w` (which may span newlines).  If a non-whitespace
character follows, the capture is the rest of that line.  If the run reaches
the end of the string, the engine backtracks: `\s+` gives back characters
until `(.+)$` can match, which makes the capture the last non-newline
character of `w` past its first character — or the attempt fails when they
are all newlines. -/
def matchHeading (n : Nat) (s : Str) : Option Str :=
  match dropHashes n s with
  | none => none
  | some rest =>
    let w := rest.takeWhile (fun c => pyWs c)
    let r := rest.dropWhile (fun c => pyWs c)
    if w.isEmpty then none
    else if r.isEmpty then
      match lastNonNl (w.drop 1) with
      | some c => some [c]
      | none => none
    else some (r.takeWhile (fun c => c != '\n'))

/-- Advance past the next newline: the next `^` anchor position. -/
def dropLine : Str → Option Str
  | [] => none
  | c :: t => if c = '\n' then some t else dropLine t

def searchHeadingGo (n : Nat) : Nat → Str → Option Str
  | 0, _ => none
  | f + 1, s =>
    match matchHeading n s with
    | some g => some g
    | none =>
      match dropLine s with
      | none => none
      | some t => searchHeadingGo n f t

/-- `re.search(pat, md, re.M)` for the heading pattern with `n` hashes:
try every line-start anchor left to right. -/
def searchHeading (n : Nat) (md : Str) : Option Str :=
  searchHeadingGo n (md.length + 1) md

/-- `guess_title_from_md`: the level-1 pattern is searched over the whole
body first and its stripped capture returned on success (even when it strips
to the empty string); only when it matches nowhere is the level-2 pattern
tried; the empty string when neither matches. -/
def guessTitleFromMd (md : Str) : Str :=
  match searchHeading 1 md with
  | some g => pyStrip g
  | none =>
    match searchHeading 2 md with
    | some g => pyStrip g
    | none => []

/-! ## Section normalization (package_site.py lines 74–82) -/
/-- Normalize one element of `sec_list`: a mapping yields
`{label: label|name|type|"section", text: text|content|""}`, a bare string
yields `{label: "section", text: s}`, anything else is skipped. -/
def normSectionElem : JVal → Option Dict
  | .obj kvs =>
    some [(sLabel, pyOr (pyGet kvs sLabel)
                    (pyOr (pyGet kvs sName)
                      (pyOr (pyGet kvs sType) (.str sSectionWord)))),
          (sText, pyOr (pyGet kvs sText) (pyOr (pyGet kvs sContent) (.str [])))]
  | .str s => some [(sLabel, .str sSectionWord), (sText, .str s)]
  | _ => none

/-- The `sec_norm` loop over `sec_list`. -/
def normSections (xs : List JVal) : List Dict :=
  xs.filterMap normSectionElem

/-- Python iteration over the value bound to `sec_list` (`for s in sec_list`):
a list yields its elements, a string its characters (as length-1 strings), a
mapping its keys; scalars raise `TypeError`. -/
def pyIter : JVal → Except PyErr (List JVal)
  | .arr xs => .ok xs
  | .str s => .ok (s.map (fun c => .str [c]))
  | .obj kvs => .ok (kvs.map (fun kv => .str kv.1))
  | _ => .error .typeError

/-- The `structure` resolution of `build_record` (lines 63–72), which depends
on the shape of the `sections` artifact. -/
def resolveStructure (analysis : Dict) (sections : JVal) : JVal :=
  match sections with
  | .arr _ => pyOr (pyGet analysis sStructure) (.arr [])
  | .obj kvs =>
    pyOr (pyGet kvs sStructure) (pyOr (pyGet analysis sStructure) (.arr []))
  | _ => pyOr (pyGet analysis sStructure) (.arr [])

/-- The `sec_list` resolution of `build_record` (lines 63–72). -/
def resolveSecList (analysis : Dict) (sections : JVal) : JVal :=
  match sections with
  | .arr xs => .arr xs
  | .obj kvs =>
    pyOr (pyGet kvs sSections) (pyOr (pyGet analysis sSections) (.arr []))
  | _ => pyOr (pyGet analysis sSections) (.arr [])

/-! ## Python `str()` of a JSON value (used by f-strings and the renderer) -/
/-- The digit character of `d < 10`. -/
def digitChar (d : Nat) : Char := Char.ofNat ('0'.toNat + d)

/-- Decimal digits of `n`, most significant first, on explicit fuel (any fuel
above `n` is enough, since `n / 10 < n`). -/
def natDecGo : Nat → Nat → Str
  | 0, _ => []
  | fuel + 1, n =>
    if n < 10 then [digitChar n]
    else natDecGo fuel (n / 10) ++ [digitChar (n % 10)]

/-- Decimal digit characters of a natural number, most significant first. -/
def natDec (n : Nat) : Str := natDecGo (n + 1) n

/-- Decimal representation of an integer. -/
def intDec (i : Int) : Str :=
  if i < 0 then '-' :: natDec i.natAbs else natDec i.natAbs

/-- Escape one character inside a Python `repr` of a string quoted by `q`. -/
def pyReprEsc (q : Char) (c : Char) : Str :=
  if c = '\\' then ['\\', '\\']
  else if c = q then ['\\', q]
  else if c = '\n' then ['\\', 'n']
  else if c = '\r' then ['\\', 'r']
  else if c = '\t' then ['\\', 't']
  else [c]

/-- Python `repr` of a string: single-quoted, double-quoted only when the
text contains a single quote but no double quote. -/
def pyReprStr (s : Str) : Str :=
  if '\'' ∈ s && '"' ∉ s then
    '"' :: ((s.map (pyReprEsc '"')).flatten ++ ['"'])
  else
    '\'' :: ((s.map (pyReprEsc '\'')).flatten ++ ['\''])

mutual
/-- Python `repr` of a JSON-shaped value. -/
def pyRepr : JVal → Str
  | .null => "None".data
  | .bool true => "True".data
  | .bool false => "False".data
  | .num i => intDec i
  | .str s => pyReprStr s
  | .arr xs => '[' :: (pyReprElems xs ++ [']'])
  | .obj kvs => '\x7b' :: (pyReprEntries kvs ++ ['\x7d'])

def pyReprElems : List JVal → Str
  | [] => []
  | x :: rest =>
    pyRepr x ++ (match rest with | [] => [] | _ => ',' :: ' ' :: pyReprElems rest)

def pyReprEntries : List (Str × JVal) → Str
  | [] => []
  | (k, v) :: rest =>
    pyReprStr k ++ ':' :: ' ' :: pyRepr v ++
      (match rest with | [] => [] | _ => ',' :: ' ' :: pyReprEntries rest)
end

/-- Python `str()` of a JSON-shaped value (`str` is the identity on strings,
`repr`-like on containers). -/
def pyStr : JVal → Str
  | .null => "None".data
  | .bool true => "True".data
  | .bool false => "False".data
  | .num i => intDec i
  | .str s => s
  | v => pyRepr v

/-! ## `build_record` core (package_site.py lines 40–104)

`buildRecordCore` receives the markdown text and the already-loaded artifacts
(each `\x7b\x7d` when its file is absent or malformed); `build_record` itself
(file-system level) is defined after the JSON loader below. -/
/-- The `recs` resolution (lines 84–86): a mapping becomes the list of
`f"\x7bk\x7d: \x7bv\x7d"` strings; anything else passes through the `or []`. -/
def resolveRecs (analysis : Dict) : JVal :=
  let recs := pyOr (pyGet analysis sRecommendations) (.arr [])
  match recs with
  | .obj kvs => .arr (kvs.map (fun kv => .str (kv.1 ++ ':' :: ' ' :: pyStr kv.2)))
  | v => v

/-- The record dictionary built by `build_record` from loaded inputs and the
already-iterated `sec_list` elements.  Mirrors the dict literal at lines
88–104, key by key, in order. -/
def recordOf (stem : Str) (mdRaw : Str)
    (meta analysis metrics classify : Dict) (sections : JVal)
    (secItems : List JVal) : Dict :=
  let md := cleanMd mdRaw
  let url := pyOr (pyGet meta sUrl) (pyOr (pyGet analysis sUrl) (.str []))
  let title := pyOr (pyGet meta sTitle)
                (pyOr (pyGet analysis sTitle)
                  (pyOr (.str (guessTitleFromMd md)) (.str stem)))
  let pageType := pyOr (pyGet classify sPageType)
                   (pyOr (pyGet analysis sPageType) (.str sOther))
  let scores : JVal := .obj
    [(sQuality, pyOr (pyGet metrics sQuality) (pyGet analysis sQualityScore)),
     (sReadability, pyOr (pyGet metrics sReadability) (pyGet analysis sReadability)),
     (sSeo, pyOr (pyGet metrics sSeo) (pyGet analysis sSeoScore))]
  [(sId, .str stem),
   (sUrl, url),
   (sTitle, title),
   (sPageType, pageType),
   (sScores, scores),
   (sReadability, .obj [(sFlesch,
      pyOr (pyGet metrics sFlesch) (pyGet analysis sFleschScore))]),
   (sStructure, resolveStructure analysis sections),
   (sImages, pyGetD meta sImages (.arr [])),
   (sLinks, pyGetD meta sLinks (.arr [])),
   (sWordCount, pyGet meta sWordCount),
   (sReadingTime, pyGet meta sReadingTime),
   (sSections, .arr ((normSections secItems).map .obj)),
   (sRawMarkdown, .str md),
   (sRecommendations, resolveRecs analysis),
   (sRelatedPages, pyOr (pyGet analysis sRelatedPages) (.arr []))]

/-- `build_record` given loaded artifacts: the `for s in sec_list` iteration
can raise `TypeError`; everything else is the pure `recordOf`. -/
def buildRecordCore (stem : Str) (mdRaw : Str)
    (meta analysis metrics classify : Dict) (sections : JVal) :
    Except PyErr Dict :=
  (pyIter (resolveSecList analysis sections)).map
    (recordOf stem mdRaw meta analysis metrics classify sections)

/-- The fifteen fields of a Page Record, in the order `build_record` emits
them. -/
def recordKeys : List Str :=
  [sId, sUrl, sTitle, sPageType, sScores, sReadability, sStructure, sImages,
   sLinks, sWordCount, sReadingTime, sSections, sRawMarkdown,
   sRecommendations, sRelatedPages]

/-- Field access on a built record (`None` on error, for stating claims). -/
def recField (k : Str) : Except PyErr Dict → Option JVal
  | .ok r => r.lookup k
  | .error _ => none

/-- Access one entry of the `scores` mapping of a built record. -/
def recScore (k : Str) (e : Except PyErr Dict) : Option JVal :=
  match recField sScores e with
  | some (.obj sc) => sc.lookup k
  | _ => none

/-! ## Claim C8: blank-line collapsing in `clean_md` -/
/-- Boolean scan for three consecutive newlines. -/
def has3 : Str → Bool
  | a :: b :: c :: t => (a = '\n' && b = '\n' && c = '\n') || has3 (b :: c :: t)
  | _ => false

/-! ## The JSON codec

`json.dumps(..., ensure_ascii=False)` with the default separators
`", "` and `": "` (package_site.py line 158), and `json.loads`.  `loads` is a
recursive-descent parser on explicit fuel; `dumps` mirrors Python's compact
serializer (strings escaped with `\"`, `\\`, `\n`, `\t`, `\r`, `\b`, `\f` and
`\u00XX` for other control characters). -/
def isJsonWs (c : Char) : Bool := c = ' ' || c = '\t' || c = '\n' || c = '\r'

def skipWs : Str → Str
  | c :: cs => if isJsonWs c then skipWs cs else c :: cs
  | [] => []

/-- Lowercase hexadecimal digit of `d < 16`. -/
def hexDig (d : Nat) : Char :=
  if d < 10 then digitChar d else Char.ofNat ('a'.toNat + (d - 10))

def hexVal (c : Char) : Option Nat :=
  let n := c.toNat
  if 48 ≤ n && n ≤ 57 then some (n - 48)
  else if 97 ≤ n && n ≤ 102 then some (n - 87)
  else if 65 ≤ n && n ≤ 70 then some (n - 55)
  else none

/-- One character of a JSON string, escaped as `json.dumps` does with
`ensure_ascii=False`. -/
def escChar (c : Char) : Str :=
  if c = '"' then ['\\', '"']
  else if c = '\\' then ['\\', '\\']
  else if c = '\n' then ['\\', 'n']
  else if c = '\t' then ['\\', 't']
  else if c = '\r' then ['\\', 'r']
  else if c = '\x08' then ['\\', 'b']
  else if c = '\x0c' then ['\\', 'f']
  else if c.toNat < 32 then
    ['\\', 'u', '0', '0', hexDig (c.toNat / 16), hexDig (c.toNat % 16)]
  else [c]

def escape (s : Str) : Str := (s.map escChar).flatten

mutual
/-- `json.dumps` with `ensure_ascii=False` and default separators. -/
def dumps : JVal → Str
  | .null => "null".data
  | .bool true => "true".data
  | .bool false => "false".data
  | .num i => intDec i
  | .str s => '"' :: (escape s ++ ['"'])
  | .arr xs => '[' :: (dumpsElems xs ++ [']'])
  | .obj kvs => '\x7b' :: (dumpsEntries kvs ++ ['\x7d'])

def dumpsElems : List JVal → Str
  | [] => []
  | x :: rest =>
    dumps x ++ (match rest with
      | [] => []
      | _ :: _ => ',' :: ' ' :: dumpsElems rest)

def dumpsEntries : List (Str × JVal) → Str
  | [] => []
  | (k, v) :: rest =>
    '"' :: (escape k ++ ['"']) ++ ':' :: ' ' :: dumps v
      ++ (match rest with
        | [] => []
        | _ :: _ => ',' :: ' ' :: dumpsEntries rest)
end

def unescapeChar (e : Char) : Option Char :=
  match e with
  | 'n' => some '\n'
  | 't' => some '\t'
  | 'r' => some '\r'
  | 'b' => some '\x08'
  | 'f' => some '\x0c'
  | '"' => some '"'
  | '\\' => some '\\'
  | '/' => some '/'
  | _ => none

/-- Parse the body of a JSON string after its opening quote. -/
def parseStrBody : Str → Option (Str × Str)
  | '"' :: r => some ([], r)
  | '\\' :: 'u' :: h1 :: h2 :: h3 :: h4 :: r =>
    (match hexVal h1, hexVal h2, hexVal h3, hexVal h4 with
     | some a, some b, some c, some d =>
       (parseStrBody r).map (fun p =>
         (Char.ofNat (((a * 16 + b) * 16 + c) * 16 + d) :: p.1, p.2))
     | _, _, _, _ => none)
  | '\\' :: e :: r =>
    (match unescapeChar e with
     | some c => (parseStrBody r).map (fun p => (c :: p.1, p.2))
     | none => none)
  | c :: r =>
    if c = '\\' then none
    else (parseStrBody r).map (fun p => (c :: p.1, p.2))
  | [] => none

/-- Take the maximal leading run of decimal digits. -/
def takeDigits : Str → Str × Str
  | c :: cs =>
    if c.isDigit then
      match takeDigits cs with
      | (ds, r) => (c :: ds, r)
    else ([], c :: cs)
  | [] => ([], [])

def digitsToNat (ds : Str) : Nat :=
  ds.foldl (fun a c => 10 * a + (c.toNat - '0'.toNat)) 0

/-- Parse a JSON integer (the artifacts under test carry no floats). -/
def parseNum (s : Str) : Option (JVal × Str) :=
  match s with
  | c :: r =>
    if c = '-' then
      match takeDigits r with
      | ([], _) => none
      | (ds, rest) => some (.num (-(digitsToNat ds : Int)), rest)
    else
      match takeDigits (c :: r) with
      | ([], _) => none
      | (ds, rest) => some (.num ((digitsToNat ds : Int)), rest)
  | [] => none

mutual
/-- Recursive-descent JSON value parser on explicit fuel. -/
def parseVal : Nat → Str → Option (JVal × Str)
  | 0, _ => none
  | fuel + 1, s =>
    match skipWs s with
    | 'n' :: 'u' :: 'l' :: 'l' :: r => some (.null, r)
    | 't' :: 'r' :: 'u' :: 'e' :: r => some (.bool true, r)
    | 'f' :: 'a' :: 'l' :: 's' :: 'e' :: r => some (.bool false, r)
    | '"' :: r => (parseStrBody r).map (fun p => (.str p.1, p.2))
    | '[' :: r =>
      (match skipWs r with
       | ']' :: r2 => some (.arr [], r2)
       | _ => (parseElems fuel r).map (fun p => (.arr p.1, p.2)))
    | '\x7b' :: r =>
      (match skipWs r with
       | '\x7d' :: r2 => some (.obj [], r2)
       | _ => (parseEntries fuel r).map (fun p => (.obj p.1, p.2)))
    | c :: r =>
      if c = '-' || c.isDigit then parseNum (c :: r) else none
    | [] => none

/-- One-or-more comma-separated array elements, through the closing `]`. -/
def parseElems : Nat → Str → Option (List JVal × Str)
  | 0, _ => none
  | fuel + 1, s =>
    match parseVal fuel s with
    | none => none
    | some (v, r) =>
      match skipWs r with
      | ',' :: r2 => (parseElems fuel r2).map (fun p => (v :: p.1, p.2))
      | ']' :: r2 => some ([v], r2)
      | _ => none

/-- One-or-more `"key": value` members, through the closing brace. -/
def parseEntries : Nat → Str → Option (List (Str × JVal) × Str)
  | 0, _ => none
  | fuel + 1, s =>
    match skipWs s with
    | '"' :: r =>
      (match parseStrBody r with
       | none => none
       | some (k, r1) =>
         match skipWs r1 with
         | ':' :: r2 =>
           (match parseVal fuel r2 with
            | none => none
            | some (v, r3) =>
              match skipWs r3 with
              | ',' :: r4 => (parseEntries fuel r4).map (fun p => ((k, v) :: p.1, p.2))
              | '\x7d' :: r4 => some ([(k, v)], r4)
              | _ => none)
         | _ => none)
    | _ => none
end

/-- `json.loads`: parse a complete document, requiring only trailing
whitespace after the value. -/
def loads (s : Str) : Option JVal :=
  match parseVal (s.length + 1) s with
  | some (v, r) => if (skipWs r).isEmpty then some v else none
  | none => none

/-- `write_site_jsonl` (package_site.py lines 154–158): one
`json.dumps(record)` per line, in input order. -/
def writeSiteJsonl (records : List JVal) : Str :=
  (records.map (fun r => dumps r ++ ['\n'])).flatten

/-- The character after a serialized number must not extend it. -/
def NoDigitHead (r : Str) : Prop := ∀ c, r.head? = some c → c.isDigit = false

/-! ### Whitespace skipping -/
def AllWS (w : Str) : Prop := ∀ c ∈ w, isJsonWs c = true

/-! ### Parser fuel accounting and the structural induction principle -/
mutual
/-- Fuel sufficient to parse a serialized value. -/
def jsize : JVal → Nat
  | .null => 1
  | .bool _ => 1
  | .num _ => 1
  | .str _ => 1
  | .arr xs => 1 + jsizeElems xs
  | .obj kvs => 1 + jsizeEntries kvs

def jsizeElems : List JVal → Nat
  | [] => 0
  | x :: t => 1 + jsize x + jsizeElems t

def jsizeEntries : List (Str × JVal) → Nat
  | [] => 0
  | kv :: t => 1 + jsize kv.2 + jsizeEntries t
end

/-! ### The round trip: `parseVal` inverts `dumps` -/
/-- A value whose serialization, between any whitespace prefix and any
remainder that cannot extend a number, parses back to itself. -/
def ParsesBack (v : JVal) : Prop :=
  ∀ fuel w r, jsize v ≤ fuel → AllWS w → NoDigitHead r →
    parseVal fuel (w ++ (dumps v ++ r)) = some (v, r)

/-! ## The file system, `load_json` and the file-system-level `build_record` -/
/-- The file system: a partial map from paths to file text. -/
abbrev FS := Str → Option Str

/-- `Path.read_text`: raises `FileNotFoundError` on a missing file. -/
def readText (fs : FS) (p : Str) : Except PyErr Str :=
  match fs p with
  | some s => .ok s
  | none => .error .fileNotFound

/-- `load_json` (package_site.py lines 23–27): read and parse, returning the
empty mapping on a missing file or any parse failure — it never raises. -/
def loadJson (fs : FS) (p : Str) : JVal :=
  match fs p with
  | none => .obj []
  | some s =>
    match loads s with
    | some v => v
    | none => .obj []

/-- The `analysis_paths` dictionary handed to `build_record` by `main`. -/
structure ArtifactPaths where
  analysis : Option Str
  metrics : Option Str
  classification : Option Str
  sections : Option Str

def noPaths : ArtifactPaths := ⟨none, none, none, none⟩

/-- `analysis_paths.get(kind, Path())` followed by `load_json`: an absent
entry loads as the empty mapping. -/
def loadOpt (fs : FS) : Option Str → JVal
  | none => .obj []
  | some p => loadJson fs p

/-- Python `.get` on a non-mapping raises `AttributeError`. -/
def asDict : JVal → Except PyErr Dict
  | .obj kvs => .ok kvs
  | _ => .error .attributeError

/-- `build_record` at the file-system level (package_site.py lines 40–104):
the markdown body is read directly — a missing markdown file raises — while
every JSON artifact goes through the forgiving `load_json`. -/
def buildRecord (fs : FS) (stem : Str) (mdPath : Str) (metaPath : Option Str)
    (aps : ArtifactPaths) : Except PyErr Dict := do
  let mdRaw ← readText fs mdPath
  let meta ← asDict (loadOpt fs metaPath)
  let analysis ← asDict (loadOpt fs aps.analysis)
  let metrics ← asDict (loadOpt fs aps.metrics)
  let classify ← asDict (loadOpt fs aps.classification)
  buildRecordCore stem mdRaw meta analysis metrics classify (loadOpt fs aps.sections)

/-- The field names of a built record, or `none` when construction raised. -/
def recKeysOf : Except PyErr Dict → Option (List Str)
  | .ok r => some (r.map Prod.fst)
  | .error _ => none

/-! ## The template renderer (generate_pages_ollama.py lines 21–52)

Python strings are immutable lists of characters here, so `str.replace` is a
fuel-based left-to-right scan (`replaceAllGo`), `in` is `containsB`, and
`str.title()` is `pyTitle`.  The configuration mapping substituted by the
first loop of `render` is an opaque key to string-value bag (its values have
already been through `str()` / `", ".join`), passed as a parameter. -/
def braceFreeB (k : Str) : Bool := k.all (fun c => c != '\x7b' && c != '\x7d')

def tok (k : Str) : Str := '\x7b' :: '\x7b' :: (k ++ ['\x7d', '\x7d'])

def replaceAllGo : Nat → Str → Str → Str → Str
  | 0, _, _, s => s
  | _ + 1, _, _, [] => []
  | f + 1, pat, rep, c :: t =>
    if pat.isPrefixOf (c :: t) then
      rep ++ replaceAllGo f pat rep ((c :: t).drop pat.length)
    else c :: replaceAllGo f pat rep t

def replaceAll (s pat rep : Str) : Str := replaceAllGo (s.length + 1) pat rep s

def containsB : Str → Str → Bool
  | [], pat => pat.isEmpty
  | c :: t, pat => pat.isPrefixOf (c :: t) || containsB t pat

def pyTitleGo : Bool → Str → Str
  | _, [] => []
  | prev, c :: t =>
    if c.isAlpha then (if prev then c.toLower else c.toUpper) :: pyTitleGo true t
    else c :: pyTitleGo false t

def pyTitle (s : Str) : Str := pyTitleGo false s

/-- The second substitution loop of `render` (lines 38–42): mapping- and
sequence-valued context keys are serialized with `json.dumps`, everything
else with `str()`. -/
def ctxSubstVal : JVal → Str
  | .arr xs => dumps (.arr xs)
  | .obj kvs => dumps (.obj kvs)
  | v => pyStr v

def substConfig (t : Str) (cfg : List (Str × Str)) : Str :=
  cfg.foldl (fun out kv => replaceAll out (tok kv.1) kv.2) t

def substContext (t : Str) (ctx : Dict) : Str :=
  ctx.foldl (fun out kv => replaceAll out (tok kv.1) (ctxSubstVal kv.2)) t

/-- The literal two-line repeated-block pattern of line 50. -/
def loopBlockPat : Str :=
  "\x7b% for section in sections %\x7d\n### \x7b\x7bsection.label | title\x7d\x7d\n\x7b\x7bsection.text\x7d\x7d\n\x7b% endfor %\x7d".data

/-- The minimal-fallback pattern of line 51. -/
def loopMinPat : Str := "\x7b% for section in sections %\x7d\x7b% endfor %\x7d".data

/-- The loop-header literal tested by line 45. -/
def loopHeader : Str := "\x7b% for section in sections %\x7d".data

/-- One iteration of the sections loop (line 49):
f"### \x7bs.get('label','Section').title()\x7d\n\x7bs.get('text','')\x7d\n\n".
`.get` on a non-mapping, or `.title()` on a non-string, raises
`AttributeError`. -/
def sectionItem (s : JVal) : Except PyErr Str :=
  match s with
  | .obj d =>
    match pyGetD d sLabel (.str ("Section".data)) with
    | .str lab =>
      .ok (("### ".data) ++ pyTitle lab ++ '\n' :: (pyStr (pyGetD d sText (.str []))
        ++ ('\n' :: '\n' :: [])))
    | _ => .error .attributeError
  | _ => .error .attributeError

/-- `render` (lines 21–52): config substitution, context substitution, then
the sections loop replacement when either trigger literal occurs. -/
def render (cfg : List (Str × Str)) (text : Str) (ctx : Dict) : Except PyErr Str :=
  let out1 := substConfig text cfg
  let out2 := substContext out1 ctx
  if containsB out2 (tok sSections) || containsB out2 loopHeader then
    match pyIter (pyGetD ctx sSections (.arr [])) with
    | .error e => .error e
    | .ok items =>
      match items.mapM sectionItem with
      | .error e => .error e
      | .ok lines =>
        .ok (replaceAll (replaceAll out2 loopBlockPat lines.flatten)
          loopMinPat lines.flatten)
  else .ok out2

/-- The ten configuration keys substituted by the first loop of `render`
(lines 24–35). -/
def configKeys : List Str :=
  ["brand_name".data, "brand_voice".data, "reading_level".data,
   "primary_cta".data, "locations_emphasis".data, "company_name".data,
   "phone".data, "email".data, "address".data, "service_areas".data]

/-! ## The two entry points and the zero-pages condition

`package_site.py main` (lines 160–192): discovers markdown files, builds one
record per file, writes per-page files and the site-wide outputs, and ends
normally (exit status 0) — there is no emptiness check.  File discovery and
path resolution are external, so the discovered page list (stem, markdown
path, optional metadata path, artifact paths) is a parameter; the site.md
writer (timestamps, summary file) is elided and the jsonl writer kept.  An
uncaught per-page exception propagates as `Except.error`.

`generate_pages_ollama.py main` (lines 76–104): discovers the packaged
markdown files and aborts with `sys.exit(1)` when there are none; otherwise
it processes every file (read, render, external generation call, write) —
that per-file body is external to this development and passed as a
parameter — and ends normally (exit status 0). -/
def packageMain (fs : FS)
    (pages : List (Str × Str × Option Str × ArtifactPaths)) :
    Except PyErr (List Dict × Str × Nat) := do
  let records ← pages.mapM (fun pg => buildRecord fs pg.1 pg.2.1 pg.2.2.1 pg.2.2.2)
  .ok (records, writeSiteJsonl (records.map JVal.obj), 0)

def generateMain (process : Str → Except PyErr Unit) (files : List Str) :
    Except PyErr Nat :=
  if files.isEmpty then .ok 1
  else do
    let _ ← files.mapM process
    .ok 0

/-! # Theorems -/

/-! ## Basic facts about `pyOr` and `buildRecordCore` -/
theorem pyOr_falsy {a : JVal} (b : JVal) (h : truthy a = false) : pyOr a b = b := by
  simp [pyOr, h]

theorem pyOr_truthy {a : JVal} (b : JVal) (h : truthy a = true) : pyOr a b = a := by
  simp [pyOr, h]

theorem buildRecordCore_ok {analysis : Dict} {sections : JVal} {items : List JVal}
    (stem mdRaw : Str) (meta metrics classify : Dict)
    (h : pyIter (resolveSecList analysis sections) = .ok items) :
    buildRecordCore stem mdRaw meta analysis metrics classify sections
      = .ok (recordOf stem mdRaw meta analysis metrics classify sections items) := by
  simp [buildRecordCore, h, Except.map]

/-! ## Claim C2: title precedence -/
/-- C2, counterexample.  The claim says that when metadata and analysis give no
title and the body holds both heading levels, a level-2 heading that appears
before any level-1 heading becomes the title.  On the body
`"## Sub\n# Main"` the code instead searches the whole body for a level-1
heading first, so the title is `"Main"`, not `"Sub"`. -/
theorem c2_h2_before_h1_counterexample :
    recField sTitle
      (buildRecordCore ("home".data) ("## Sub\n# Main".data) [] [] [] [] (.obj []))
      = some (.str ("Main".data))
    ∧ ("Main".data : Str) ≠ ("Sub".data : Str) :=
  ⟨rfl, by decide⟩

/-- One fuel step of the anchored scan. -/
theorem searchHeadingGo_succ (n f : Nat) (s : Str) :
    searchHeadingGo n (f + 1) s
      = match matchHeading n s with
        | some g => some g
        | none =>
          match dropLine s with
          | none => none
          | some t => searchHeadingGo n f t := rfl

theorem dropLine_append (v : Str) : ∀ u : Str, '\n' ∉ u →
    dropLine (u ++ '\n' :: v) = some v
  | [], _ => by
    show (if '\n' = '\n' then some v else dropLine v) = some v
    rw [if_pos rfl]
  | c :: u', h => by
    show (if c = '\n' then some (u' ++ '\n' :: v) else dropLine (u' ++ '\n' :: v))
      = some v
    rw [if_neg (fun hc => h (by simp [hc]))]
    exact dropLine_append v u' (fun hm => h (by simp [hm]))

theorem dropLine_length : ∀ s t : Str, dropLine s = some t → t.length < s.length
  | [], t, h => by simp [dropLine] at h
  | c :: s', t, h => by
    by_cases hc : c = '\n'
    · rw [show dropLine (c :: s') = if c = '\n' then some s' else dropLine s' from rfl,
        if_pos hc] at h
      obtain rfl := Option.some.inj h
      simp [List.length_cons]
    · rw [show dropLine (c :: s') = if c = '\n' then some s' else dropLine s' from rfl,
        if_neg hc] at h
      have hr := dropLine_length s' t h
      simp only [List.length_cons]
      omega

theorem searchHeadingGo_congr (n : Nat) : ∀ f1 f2 s, s.length < f1 → s.length < f2 →
    searchHeadingGo n f1 s = searchHeadingGo n f2 s := by
  intro f1
  induction f1 with
  | zero => intro f2 s h1 _; exact absurd h1 (by omega)
  | succ f1 ih =>
    intro f2 s h1 h2
    obtain ⟨f2', rfl⟩ : ∃ f2', f2 = f2' + 1 := ⟨f2 - 1, by omega⟩
    rw [searchHeadingGo_succ, searchHeadingGo_succ]
    cases hm : matchHeading n s with
    | some g => rfl
    | none =>
      cases hd : dropLine s with
      | none => rfl
      | some t =>
        have hl := dropLine_length s t hd
        exact ih f2' t (by omega) (by omega)

/-- C2, amended.  `build_record` resolves the title as metadata `title`, then
analysis `title`, then the markdown fallback, then the stem.  The fallback
searches the whole body with the multiline level-1 pattern first: line-start
anchors are tried left to right and the first anchor admitting a match wins,
even when a level-2 heading appears earlier; since `\s+` in the pattern also
matches newlines, the captured text can lie on a later line than its `#`.
Only when the level-1 pattern matches nowhere is the level-2 pattern
searched; the title is the stripped capture, and when neither pattern
matches (or the capture strips to empty) it falls back to the stem. -/
theorem c2_title_resolution :
    (∀ stem mdRaw : Str, ∀ meta analysis metrics classify : Dict,
      ∀ sections : JVal, ∀ items : List JVal,
      pyIter (resolveSecList analysis sections) = .ok items →
      recField sTitle (buildRecordCore stem mdRaw meta analysis metrics classify sections)
        = some (pyOr (pyGet meta sTitle)
            (pyOr (pyGet analysis sTitle)
              (pyOr (.str (guessTitleFromMd (cleanMd mdRaw))) (.str stem)))))
    ∧ (∀ md g, searchHeading 1 md = some g → guessTitleFromMd md = pyStrip g)
    ∧ (∀ md g, searchHeading 1 md = none → searchHeading 2 md = some g →
        guessTitleFromMd md = pyStrip g)
    ∧ (∀ md, searchHeading 1 md = none → searchHeading 2 md = none →
        guessTitleFromMd md = [])
    ∧ (∀ n md g, matchHeading n md = some g → searchHeading n md = some g)
    ∧ (∀ n : Nat, ∀ u v : Str, '\n' ∉ u → matchHeading n (u ++ '\n' :: v) = none →
        searchHeading n (u ++ '\n' :: v) = searchHeading n v) := by
  refine ⟨?_, ?_, ?_, ?_, ?_, ?_⟩
  · intro stem mdRaw meta analysis metrics classify sections items h
    rw [buildRecordCore_ok stem mdRaw meta metrics classify h]
    rfl
  · intro md g h
    simp [guessTitleFromMd, h]
  · intro md g h1 h2
    simp [guessTitleFromMd, h1, h2]
  · intro md h1 h2
    simp [guessTitleFromMd, h1, h2]
  · intro n md g h
    unfold searchHeading
    rw [searchHeadingGo_succ, h]
  · intro n u v hnin hnone
    unfold searchHeading
    rw [searchHeadingGo_succ, hnone, dropLine_append v u hnin]
    refine searchHeadingGo_congr n _ _ v ?_ ?_
    · simp only [List.length_append, List.length_cons]
      omega
    · omega

/-- C2, witness for `c2_title_resolution`: the record-level precedence at the
body `"## A\n#\nB"`, whose level-1 match crosses a newline and captures
`"B"`; the single-anchor match on `"# Main"`; and the anchor-advance step. -/
theorem c2_title_resolution_witness :
    pyIter (resolveSecList [] (.obj [])) = .ok []
    ∧ recField sTitle
        (buildRecordCore ("pg".data) ("## A\n#\nB".data) [] [] [] [] (.obj []))
        = some (pyOr (pyGet [] sTitle) (pyOr (pyGet [] sTitle)
            (pyOr (.str (guessTitleFromMd (cleanMd ("## A\n#\nB".data))))
              (.str ("pg".data)))))
    ∧ searchHeading 1 ("## A\n#\nB".data) = some ("B".data)
    ∧ guessTitleFromMd ("## A\n#\nB".data) = pyStrip ("B".data)
    ∧ searchHeading 1 ("#\nX".data) = some ("X".data)
    ∧ guessTitleFromMd ("#\nX".data) = pyStrip ("X".data)
    ∧ matchHeading 1 ("# Main".data) = some ("Main".data)
    ∧ searchHeading 1 ("# Main".data) = some ("Main".data)
    ∧ ('\n' ∉ ("## A".data : Str))
    ∧ matchHeading 1 ("## A\n#\nB".data) = none
    ∧ searchHeading 1 ("## A\n#\nB".data) = searchHeading 1 ("#\nB".data) :=
  ⟨rfl,
   c2_title_resolution.1 ("pg".data) ("## A\n#\nB".data) [] [] [] [] (.obj []) [] rfl,
   rfl,
   c2_title_resolution.2.1 ("## A\n#\nB".data) ("B".data) rfl,
   rfl,
   c2_title_resolution.2.1 ("#\nX".data) ("X".data) rfl,
   rfl,
   c2_title_resolution.2.2.2.2.1 1 ("# Main".data) ("Main".data) rfl,
   by decide,
   rfl,
   c2_title_resolution.2.2.2.2.2 1 ("## A".data) ("#\nB".data) (by decide) rfl⟩

/-! ## Claim C3: shape-invariance of section normalization -/
theorem normSectionElem_str_eq_labelText (t : Str) :
    normSectionElem (.str t)
      = normSectionElem (.obj [(sLabel, .str sSectionWord), (sText, .str t)]) := by
  have hl : pyGet [(sLabel, JVal.str sSectionWord), (sText, JVal.str t)] sLabel
      = .str sSectionWord := rfl
  have ht : pyGet [(sLabel, JVal.str sSectionWord), (sText, JVal.str t)] sText
      = .str t := rfl
  have hn : pyGet [(sLabel, JVal.str sSectionWord), (sText, JVal.str t)] sName
      = .null := rfl
  have hc : pyGet [(sLabel, JVal.str sSectionWord), (sText, JVal.str t)] sContent
      = .null := rfl
  have hy : pyGet [(sLabel, JVal.str sSectionWord), (sText, JVal.str t)] sType
      = .null := rfl
  simp only [normSectionElem, hl, ht, hn, hc, hy]
  cases t with
  | nil => simp [pyOr, truthy, sSectionWord]
  | cons c cs => simp [pyOr, truthy, sSectionWord]

theorem normSectionElem_labelText_eq_nameContent (lab txt : Str) :
    normSectionElem (.obj [(sLabel, .str lab), (sText, .str txt)])
      = normSectionElem (.obj [(sName, .str lab), (sContent, .str txt)]) := by
  have h1 : pyGet [(sLabel, JVal.str lab), (sText, JVal.str txt)] sLabel = .str lab := rfl
  have h2 : pyGet [(sLabel, JVal.str lab), (sText, JVal.str txt)] sText = .str txt := rfl
  have h3 : pyGet [(sLabel, JVal.str lab), (sText, JVal.str txt)] sName = .null := rfl
  have h4 : pyGet [(sLabel, JVal.str lab), (sText, JVal.str txt)] sContent = .null := rfl
  have h5 : pyGet [(sLabel, JVal.str lab), (sText, JVal.str txt)] sType = .null := rfl
  have g1 : pyGet [(sName, JVal.str lab), (sContent, JVal.str txt)] sLabel = .null := rfl
  have g2 : pyGet [(sName, JVal.str lab), (sContent, JVal.str txt)] sText = .null := rfl
  have g3 : pyGet [(sName, JVal.str lab), (sContent, JVal.str txt)] sName = .str lab := rfl
  have g4 : pyGet [(sName, JVal.str lab), (sContent, JVal.str txt)] sContent = .str txt := rfl
  have g5 : pyGet [(sName, JVal.str lab), (sContent, JVal.str txt)] sType = .null := rfl
  simp only [normSectionElem, h1, h2, h3, h4, h5, g1, g2, g3, g4, g5]
  simp [pyOr, truthy]

/-- C3.  Section normalization is shape-invariant: a sequence of
`label`/`text` mappings and the same data as `name`/`content` mappings
normalize identically; a bare sequence of strings normalizes exactly like the
corresponding `label = "section"` mappings; and the concrete
`sections.json` mapping `\x7b"sections": [\x7b"name": "intro", "content":
"Hi"\x7d]\x7d` normalizes to `[\x7b"label": "intro", "text": "Hi"\x7d]` inside
the built record. -/
theorem c3_sections_shape_invariance :
    (∀ ps : List (Str × Str),
      normSections (ps.map (fun p => .obj [(sLabel, .str p.1), (sText, .str p.2)]))
        = normSections (ps.map (fun p => .obj [(sName, .str p.1), (sContent, .str p.2)])))
    ∧ (∀ ts : List Str,
      normSections (ts.map .str)
        = normSections (ts.map (fun t => .obj [(sLabel, .str sSectionWord), (sText, .str t)])))
    ∧ recField sSections
        (buildRecordCore ("pg".data) ("body".data) [] [] [] []
          (.obj [(sSections,
            .arr [.obj [(sName, .str ("intro".data)), (sContent, .str ("Hi".data))]])]))
        = some (.arr [.obj [(sLabel, .str ("intro".data)), (sText, .str ("Hi".data))]]) := by
  refine ⟨?_, ?_, rfl⟩
  · intro ps
    induction ps with
    | nil => rfl
    | cons p rest ih =>
      simp only [List.map_cons, normSections, List.filterMap_cons]
      rw [normSectionElem_labelText_eq_nameContent p.1 p.2]
      simp only [normSections] at ih
      rw [ih]
  · intro ts
    induction ts with
    | nil => rfl
    | cons t rest ih =>
      simp only [List.map_cons, normSections, List.filterMap_cons]
      rw [normSectionElem_str_eq_labelText t]
      simp only [normSections] at ih
      rw [ih]

/-! ## Claim C4: recommendations normalization -/
/-- C4.  `build_record` resolves `recommendations` by: a mapping becomes the
sequence of `"key: value"` strings (one per entry, in order); a sequence
passes through unchanged; a falsy source (absent, `null`, empty) defaults to
the empty sequence; and the record's `recommendations` field is exactly this
resolution. -/
theorem c4_recommendations_normalization :
    (∀ analysis : Dict, ∀ kvs : List (Str × JVal),
      pyGet analysis sRecommendations = .obj kvs →
      resolveRecs analysis
        = .arr (kvs.map (fun kv => .str (kv.1 ++ ':' :: ' ' :: pyStr kv.2))))
    ∧ (∀ analysis : Dict, ∀ xs : List JVal,
      pyGet analysis sRecommendations = .arr xs → resolveRecs analysis = .arr xs)
    ∧ (∀ analysis : Dict, truthy (pyGet analysis sRecommendations) = false →
      resolveRecs analysis = .arr [])
    ∧ (∀ stem mdRaw : Str, ∀ meta analysis metrics classify : Dict,
      ∀ sections : JVal, ∀ items : List JVal,
      pyIter (resolveSecList analysis sections) = .ok items →
      recField sRecommendations
        (buildRecordCore stem mdRaw meta analysis metrics classify sections)
        = some (resolveRecs analysis)) := by
  refine ⟨?_, ?_, ?_, ?_⟩
  · intro analysis kvs h
    unfold resolveRecs
    rw [h]
    cases kvs with
    | nil => simp [pyOr, truthy]
    | cons kv rest => simp [pyOr, truthy]
  · intro analysis xs h
    unfold resolveRecs
    rw [h]
    cases xs with
    | nil => simp [pyOr, truthy]
    | cons x rest => simp [pyOr, truthy]
  · intro analysis h
    unfold resolveRecs
    rw [pyOr_falsy _ h]
  · intro stem mdRaw meta analysis metrics classify sections items h
    rw [buildRecordCore_ok stem mdRaw meta metrics classify h]
    rfl

/-- C4, witness: the analysis mapping `\x7b"recommendations": \x7b"seo": "add
alt text"\x7d\x7d` yields `["seo: add alt text"]`, also inside the built
record. -/
theorem c4_recommendations_normalization_witness :
    pyGet [(sRecommendations, JVal.obj [(sSeo, JVal.str ("add alt text".data))])]
        sRecommendations
      = .obj [(sSeo, JVal.str ("add alt text".data))]
    ∧ resolveRecs [(sRecommendations, JVal.obj [(sSeo, JVal.str ("add alt text".data))])]
      = .arr [.str ("seo: add alt text".data)]
    ∧ recField sRecommendations
        (buildRecordCore ("pg".data) ("body".data) []
          [(sRecommendations, JVal.obj [(sSeo, JVal.str ("add alt text".data))])]
          [] [] (.obj []))
        = some (.arr [.str ("seo: add alt text".data)]) := by
  refine ⟨rfl, ?_, ?_⟩
  · exact (c4_recommendations_normalization.1
      [(sRecommendations, JVal.obj [(sSeo, JVal.str ("add alt text".data))])]
      [(sSeo, JVal.str ("add alt text".data))] rfl).trans (by rfl)
  · exact (c4_recommendations_normalization.2.2.2 ("pg".data) ("body".data) []
      [(sRecommendations, JVal.obj [(sSeo, JVal.str ("add alt text".data))])]
      [] [] (.obj []) [] rfl).trans (by rfl)

/-! ## Claim C10: falsy values fall through the precedence chains -/
theorem pyOr_arr_self (ys : List JVal) : pyOr (.arr ys) (.arr []) = .arr ys := by
  cases ys with
  | nil => simp [pyOr, truthy]
  | cons y rest => simp [pyOr, truthy]

/-- C10.  Every `or`-based precedence chain of `build_record` treats falsy
values (not only missing keys) as absent: a falsy metrics `quality` /
`readability` / `seo` yields the corresponding analysis field (`null` when
that too is absent), and the same fall-through holds for `url`, `title`,
`page_type`, `flesch`, `structure`, `sections`, `recommendations` and
`related_pages`. -/
theorem c10_falsy_fall_through :
    ∀ stem mdRaw : Str, ∀ meta analysis metrics classify : Dict,
    ∀ sections : JVal, ∀ items : List JVal,
    pyIter (resolveSecList analysis sections) = .ok items →
    ((truthy (pyGet metrics sQuality) = false →
      recScore sQuality (buildRecordCore stem mdRaw meta analysis metrics classify sections)
        = some (pyGet analysis sQualityScore))
    ∧ (truthy (pyGet metrics sReadability) = false →
      recScore sReadability (buildRecordCore stem mdRaw meta analysis metrics classify sections)
        = some (pyGet analysis sReadability))
    ∧ (truthy (pyGet metrics sSeo) = false →
      recScore sSeo (buildRecordCore stem mdRaw meta analysis metrics classify sections)
        = some (pyGet analysis sSeoScore))
    ∧ (truthy (pyGet meta sUrl) = false →
      recField sUrl (buildRecordCore stem mdRaw meta analysis metrics classify sections)
        = some (pyOr (pyGet analysis sUrl) (.str [])))
    ∧ (truthy (pyGet meta sTitle) = false →
      recField sTitle (buildRecordCore stem mdRaw meta analysis metrics classify sections)
        = some (pyOr (pyGet analysis sTitle)
            (pyOr (.str (guessTitleFromMd (cleanMd mdRaw))) (.str stem))))
    ∧ (truthy (pyGet classify sPageType) = false →
      recField sPageType (buildRecordCore stem mdRaw meta analysis metrics classify sections)
        = some (pyOr (pyGet analysis sPageType) (.str sOther)))
    ∧ (truthy (pyGet metrics sFlesch) = false →
      recField sReadability (buildRecordCore stem mdRaw meta analysis metrics classify sections)
        = some (.obj [(sFlesch, pyGet analysis sFleschScore)]))
    ∧ (∀ kvs : Dict, sections = .obj kvs → truthy (pyGet kvs sStructure) = false →
      recField sStructure (buildRecordCore stem mdRaw meta analysis metrics classify sections)
        = some (pyOr (pyGet analysis sStructure) (.arr [])))
    ∧ (∀ kvs : Dict, ∀ ys : List JVal, sections = .obj kvs →
      truthy (pyGet kvs sSections) = false → pyGet analysis sSections = .arr ys →
      recField sSections (buildRecordCore stem mdRaw meta analysis metrics classify sections)
        = some (.arr ((normSections ys).map .obj)))
    ∧ (truthy (pyGet analysis sRecommendations) = false →
      recField sRecommendations (buildRecordCore stem mdRaw meta analysis metrics classify sections)
        = some (.arr []))
    ∧ (truthy (pyGet analysis sRelatedPages) = false →
      recField sRelatedPages (buildRecordCore stem mdRaw meta analysis metrics classify sections)
        = some (pyOr (pyGet analysis sRelatedPages) (.arr [])))) := by
  intro stem mdRaw meta analysis metrics classify sections items h
  have hrec := buildRecordCore_ok stem mdRaw meta metrics classify h
  refine ⟨?_, ?_, ?_, ?_, ?_, ?_, ?_, ?_, ?_, ?_, ?_⟩
  · intro hf
    have hv : recScore sQuality
        (.ok (recordOf stem mdRaw meta analysis metrics classify sections items))
        = some (pyOr (pyGet metrics sQuality) (pyGet analysis sQualityScore)) := rfl
    rw [hrec, hv, pyOr_falsy _ hf]
  · intro hf
    have hv : recScore sReadability
        (.ok (recordOf stem mdRaw meta analysis metrics classify sections items))
        = some (pyOr (pyGet metrics sReadability) (pyGet analysis sReadability)) := rfl
    rw [hrec, hv, pyOr_falsy _ hf]
  · intro hf
    have hv : recScore sSeo
        (.ok (recordOf stem mdRaw meta analysis metrics classify sections items))
        = some (pyOr (pyGet metrics sSeo) (pyGet analysis sSeoScore)) := rfl
    rw [hrec, hv, pyOr_falsy _ hf]
  · intro hf
    have hv : recField sUrl
        (.ok (recordOf stem mdRaw meta analysis metrics classify sections items))
        = some (pyOr (pyGet meta sUrl) (pyOr (pyGet analysis sUrl) (.str []))) := rfl
    rw [hrec, hv, pyOr_falsy _ hf]
  · intro hf
    have hv : recField sTitle
        (.ok (recordOf stem mdRaw meta analysis metrics classify sections items))
        = some (pyOr (pyGet meta sTitle) (pyOr (pyGet analysis sTitle)
            (pyOr (.str (guessTitleFromMd (cleanMd mdRaw))) (.str stem)))) := rfl
    rw [hrec, hv, pyOr_falsy _ hf]
  · intro hf
    have hv : recField sPageType
        (.ok (recordOf stem mdRaw meta analysis metrics classify sections items))
        = some (pyOr (pyGet classify sPageType)
            (pyOr (pyGet analysis sPageType) (.str sOther))) := rfl
    rw [hrec, hv, pyOr_falsy _ hf]
  · intro hf
    have hv : recField sReadability
        (.ok (recordOf stem mdRaw meta analysis metrics classify sections items))
        = some (.obj [(sFlesch,
            pyOr (pyGet metrics sFlesch) (pyGet analysis sFleschScore))]) := rfl
    rw [hrec, hv, pyOr_falsy _ hf]
  · intro kvs hsec hf
    subst hsec
    have hv : recField sStructure
        (.ok (recordOf stem mdRaw meta analysis metrics classify (.obj kvs) items))
        = some (pyOr (pyGet kvs sStructure)
            (pyOr (pyGet analysis sStructure) (.arr []))) := rfl
    rw [hrec, hv, pyOr_falsy _ hf]
  · intro kvs ys hsec hf hys
    subst hsec
    have hres : resolveSecList analysis (.obj kvs) = .arr ys := by
      show pyOr (pyGet kvs sSections) (pyOr (pyGet analysis sSections) (.arr [])) = .arr ys
      rw [pyOr_falsy _ hf, hys, pyOr_arr_self]
    rw [hres] at h
    have hitems : items = ys := by
      have := h
      simp only [pyIter] at this
      exact (Except.ok.inj this).symm
    subst hitems
    have hv : recField sSections
        (.ok (recordOf stem mdRaw meta analysis metrics classify (.obj kvs) items))
        = some (.arr ((normSections items).map .obj)) := rfl
    rw [hrec, hv]
  · intro hf
    have hv : recField sRecommendations
        (.ok (recordOf stem mdRaw meta analysis metrics classify sections items))
        = some (resolveRecs analysis) := rfl
    have hr : resolveRecs analysis = .arr [] := by
      unfold resolveRecs
      rw [pyOr_falsy _ hf]
    rw [hrec, hv, hr]
  · intro hf
    have hv : recField sRelatedPages
        (.ok (recordOf stem mdRaw meta analysis metrics classify sections items))
        = some (pyOr (pyGet analysis sRelatedPages) (.arr [])) := rfl
    rw [hrec, hv]

/-- C10, witness: metrics mapping every score key to the number `0`, empty
metadata strings, an all-zero classification, and the analysis supplying the
fallback values. -/
theorem c10_falsy_fall_through_witness :
    truthy (pyGet [(sQuality, JVal.num 0), (sReadability, JVal.num 0),
        (sSeo, JVal.num 0), (sFlesch, JVal.num 0)] sQuality) = false
    ∧ pyIter (resolveSecList
        [(sQualityScore, JVal.num 7), (sSeoScore, JVal.num 9),
         (sSections, JVal.arr [JVal.str ("s1".data)])] (.obj [])) = .ok [JVal.str ("s1".data)]
    ∧ recScore sQuality
        (buildRecordCore ("pg".data) ("body".data) []
          [(sQualityScore, JVal.num 7), (sSeoScore, JVal.num 9),
           (sSections, JVal.arr [JVal.str ("s1".data)])]
          [(sQuality, JVal.num 0), (sReadability, JVal.num 0),
           (sSeo, JVal.num 0), (sFlesch, JVal.num 0)]
          [] (.obj []))
        = some (.num 7)
    ∧ recField sSections
        (buildRecordCore ("pg".data) ("body".data) []
          [(sQualityScore, JVal.num 7), (sSeoScore, JVal.num 9),
           (sSections, JVal.arr [JVal.str ("s1".data)])]
          [(sQuality, JVal.num 0), (sReadability, JVal.num 0),
           (sSeo, JVal.num 0), (sFlesch, JVal.num 0)]
          [] (.obj []))
        = some (.arr [.obj [(sLabel, .str sSectionWord), (sText, .str ("s1".data))]]) := by
  refine ⟨rfl, rfl, ?_, ?_⟩
  · exact ((c10_falsy_fall_through ("pg".data) ("body".data) []
      [(sQualityScore, JVal.num 7), (sSeoScore, JVal.num 9),
       (sSections, JVal.arr [JVal.str ("s1".data)])]
      [(sQuality, JVal.num 0), (sReadability, JVal.num 0),
       (sSeo, JVal.num 0), (sFlesch, JVal.num 0)]
      [] (.obj []) [JVal.str ("s1".data)] rfl).1 rfl).trans (by rfl)
  · exact ((c10_falsy_fall_through ("pg".data) ("body".data) []
      [(sQualityScore, JVal.num 7), (sSeoScore, JVal.num 9),
       (sSections, JVal.arr [JVal.str ("s1".data)])]
      [(sQuality, JVal.num 0), (sReadability, JVal.num 0),
       (sSeo, JVal.num 0), (sFlesch, JVal.num 0)]
      [] (.obj []) [JVal.str ("s1".data)] rfl).2.2.2.2.2.2.2.2.1 []
      [JVal.str ("s1".data)] rfl rfl rfl).trans (by rfl)

theorem has3_cons3 (a b c : Char) (t : Str) :
    has3 (a :: b :: c :: t) = ((a = '\n' && b = '\n' && c = '\n') || has3 (b :: c :: t)) := rfl

theorem has3_cons_of_has3 {t : Str} (c : Char) (h : has3 t = true) :
    has3 (c :: t) = true := by
  match t with
  | [] => simp [has3] at h
  | [x] => simp [has3] at h
  | x :: y :: t2 => rw [has3_cons3, h]; simp

theorem has3_cons_notNl {c : Char} (y : Str) (hc : ¬ c = '\n') :
    has3 (c :: y) = has3 y := by
  match y with
  | [] => simp [has3]
  | [d] => simp [has3]
  | d :: e :: y2 => rw [has3_cons3]; simp [hc]

theorem has3_cons2_notNl (a : Char) {c : Char} (y : Str) (hc : ¬ c = '\n') :
    has3 (a :: c :: y) = has3 y := by
  match y with
  | [] => simp [has3]
  | d :: y2 => rw [has3_cons3]; simp [hc, has3_cons_notNl _ hc]

theorem has3_of_infix {s : Str} (h : ['\n', '\n', '\n'] <:+: s) : has3 s = true := by
  rcases h with ⟨u, v, huv⟩
  subst huv
  induction u with
  | nil => simp [has3]
  | cons c u ih => exact has3_cons_of_has3 c ih

theorem infix_of_has3 : ∀ s : Str, has3 s = true → ['\n', '\n', '\n'] <:+: s := by
  intro s
  induction s with
  | nil => intro h; simp [has3] at h
  | cons a t ih =>
    intro h
    match t, ih with
    | [], _ => simp [has3] at h
    | [x], _ => simp [has3] at h
    | x :: y :: t2, ih =>
      rw [has3_cons3] at h
      rcases (Bool.or_eq_true _ _).mp h with h1 | h2
      · simp only [Bool.and_eq_true, decide_eq_true_eq] at h1
        obtain ⟨⟨ha, hx⟩, hy⟩ := h1
        subst ha; subst hx; subst hy
        exact ⟨[], t2, rfl⟩
      · rcases ih h2 with ⟨u, v, huv⟩
        exact ⟨a :: u, v, by rw [← huv]; simp⟩

theorem has3_iff_infix (s : Str) :
    has3 s = true ↔ ['\n', '\n', '\n'] <:+: s :=
  ⟨infix_of_has3 s, has3_of_infix⟩

theorem collapseGo_cons_notNl {c : Char} (n : Nat) (t : Str) (hc : ¬ c = '\n') :
    collapseGo n (c :: t) = nlRunOut n ++ c :: collapseGo 0 t := by
  simp [collapseGo, hc]

theorem collapseGo_cons_nl (n : Nat) (t : Str) :
    collapseGo n ('\n' :: t) = collapseGo (n + 1) t := by
  simp [collapseGo]

theorem has3_collapseGo (s : Str) : ∀ n, has3 (collapseGo n s) = false := by
  induction s with
  | nil =>
    intro n
    show has3 (nlRunOut n) = false
    have h : min n 2 = 0 ∨ min n 2 = 1 ∨ min n 2 = 2 := by omega
    rcases h with h | h | h <;> simp [nlRunOut, h, has3]
  | cons c t ih =>
    intro n
    by_cases hc : c = '\n'
    · subst hc
      rw [collapseGo_cons_nl]
      exact ih (n + 1)
    · rw [collapseGo_cons_notNl n t hc]
      have h : min n 2 = 0 ∨ min n 2 = 1 ∨ min n 2 = 2 := by omega
      rcases h with h | h | h
      · simp only [nlRunOut, h, List.replicate_zero, List.nil_append]
        rw [has3_cons_notNl _ hc]
        exact ih 0
      · simp only [nlRunOut, h, List.replicate_succ, List.replicate_zero,
          List.cons_append, List.nil_append]
        rw [has3_cons2_notNl _ _ hc]
        exact ih 0
      · simp only [nlRunOut, h, List.replicate_succ, List.replicate_zero,
          List.cons_append, List.nil_append]
        rw [has3_cons3, has3_cons2_notNl _ _ hc, ih 0]
        simp [hc]

theorem collapseGo_id_aux :
    ∀ bound : Nat, ∀ s : Str, s.length ≤ bound → has3 s = false → collapseGo 0 s = s := by
  intro bound
  induction bound with
  | zero =>
    intro s hs _
    have : s = [] := List.eq_nil_of_length_eq_zero (Nat.le_zero.mp hs)
    subst this
    rfl
  | succ n ih =>
    intro s hs h3
    match s with
    | [] => rfl
    | c :: t =>
      by_cases hc : c = '\n'
      · subst hc
        match t with
        | [] => rfl
        | d :: t2 =>
          by_cases hd : d = '\n'
          · subst hd
            match t2 with
            | [] => rfl
            | e :: t3 =>
              by_cases he : e = '\n'
              · subst he
                rw [has3_cons3] at h3
                simp at h3
              · rw [collapseGo_cons_nl, collapseGo_cons_nl, collapseGo_cons_notNl 2 t3 he]
                have ht3 : has3 t3 = false := by
                  rw [has3_cons3] at h3
                  simp [he] at h3
                  rw [has3_cons2_notNl _ _ he] at h3
                  exact h3
                have hlen : t3.length ≤ n := by
                  simp only [List.length_cons] at hs
                  omega
                rw [ih t3 hlen ht3]
                rfl
          · rw [collapseGo_cons_nl, collapseGo_cons_notNl 1 t2 hd]
            have ht2 : has3 t2 = false := by
              rw [has3_cons2_notNl _ _ hd] at h3
              exact h3
            have hlen : t2.length ≤ n := by
              simp only [List.length_cons] at hs
              omega
            rw [ih t2 hlen ht2]
            rfl
      · rw [collapseGo_cons_notNl 0 t hc]
        have ht : has3 t = false := by
          rw [has3_cons_notNl _ hc] at h3
          exact h3
        have hlen : t.length ≤ n := by
          simp only [List.length_cons] at hs
          omega
        rw [ih t hlen ht]
        rfl

theorem collapseGo_replicate (m : Nat) :
    ∀ n : Nat, ∀ b : Str,
      collapseGo n (List.replicate m '\n' ++ b) = collapseGo (n + m) b := by
  induction m with
  | zero => intro n b; simp
  | succ k ih =>
    intro n b
    rw [List.replicate_succ, List.cons_append, collapseGo_cons_nl, ih (n + 1) b]
    have : n + 1 + k = n + (k + 1) := by omega
    rw [this]

theorem collapseGo_append_cons :
    ∀ a : Str, ∀ n : Nat, ∀ c : Char, ∀ z : Str, ¬ c = '\n' →
      collapseGo n (a ++ c :: z) = collapseGo n (a ++ [c]) ++ collapseGo 0 z := by
  intro a
  induction a with
  | nil =>
    intro n c z hc
    simp only [List.nil_append]
    rw [collapseGo_cons_notNl n z hc, collapseGo_cons_notNl n [] hc]
    show _ = (nlRunOut n ++ c :: nlRunOut 0) ++ _
    simp [nlRunOut, List.append_assoc]
  | cons x a0 ih =>
    intro n c z hc
    by_cases hx : x = '\n'
    · subst hx
      simp only [List.cons_append]
      rw [collapseGo_cons_nl, collapseGo_cons_nl, ih (n + 1) c z hc]
    · simp only [List.cons_append]
      rw [collapseGo_cons_notNl n _ hx, collapseGo_cons_notNl n _ hx, ih 0 c z hc]
      simp [List.append_assoc]

/-- C8, counterexample.  The body `"a\n\n\nb"` holds two consecutive blank
lines (three newline characters); the claim says runs of fewer than three
blank lines stay unchanged, but the code collapses the run to one blank line
(`"a\n\nb"`), also in the record's `raw_markdown`. -/
theorem c8_two_blank_lines_counterexample :
    cleanMd ("a\n\n\nb".data) = "a\n\nb".data
    ∧ ("a\n\nb".data : Str) ≠ ("a\n\n\nb".data : Str)
    ∧ recField sRawMarkdown
        (buildRecordCore ("x".data) ("a\n\n\nb".data) [] [] [] [] (.obj []))
        = some (.str ("a\n\nb".data)) :=
  ⟨rfl, by decide, rfl⟩

/-- C8, amended.  `raw_markdown` is the body with every maximal run of three
or more newline characters — i.e. two or more consecutive blank lines —
collapsed to exactly two newlines (one blank line), runs of fewer newlines
left unchanged, and the result stripped of leading and trailing whitespace:
the collapsed text never holds three consecutive newlines; a body without a
three-newline run is returned unchanged; a run of `k ≥ 3` newlines between
non-newline context collapses to exactly two; and the record field equals
the stripped collapse. -/
theorem c8_raw_markdown_collapse :
    (∀ s : Str, ¬ (['\n', '\n', '\n'] <:+: collapseNl s))
    ∧ (∀ s : Str, ¬ (['\n', '\n', '\n'] <:+: s) → collapseNl s = s)
    ∧ (∀ a b : Str, ∀ k : Nat, 3 ≤ k →
        a.getLast? ≠ some '\n' → b.head? ≠ some '\n' →
        collapseNl (a ++ List.replicate k '\n' ++ b)
          = collapseNl a ++ ['\n', '\n'] ++ collapseNl b)
    ∧ (∀ stem mdRaw : Str, ∀ meta analysis metrics classify : Dict,
        ∀ sections : JVal, ∀ items : List JVal,
        pyIter (resolveSecList analysis sections) = .ok items →
        recField sRawMarkdown
          (buildRecordCore stem mdRaw meta analysis metrics classify sections)
          = some (.str (pyStrip (collapseNl mdRaw)))) := by
  have hnl : ∀ s : Str, collapseNl s = collapseGo 0 s := fun _ => rfl
  have hnil : collapseNl ([] : Str) = [] := rfl
  refine ⟨?_, ?_, ?_, ?_⟩
  · intro s h
    have hmem := has3_of_infix h
    have hfalse : has3 (collapseNl s) = false := has3_collapseGo s 0
    rw [hmem] at hfalse
    exact absurd hfalse (by decide)
  · intro s h
    have h3 : has3 s = false := by
      cases hb : has3 s with
      | false => rfl
      | true => exact absurd (infix_of_has3 s hb) h
    exact collapseGo_id_aux s.length s (Nat.le_refl _) h3
  · intro a b k hk ha hb
    have hbpart : ∀ n : Nat, 3 ≤ n → collapseGo n b = ['\n', '\n'] ++ collapseNl b := by
      intro n hn
      have hmn : min n 2 = 2 := by omega
      match b with
      | [] =>
        rw [hnil]
        show nlRunOut n = _
        simp [nlRunOut, hmn, List.replicate_succ, List.replicate_zero]
      | d :: b2 =>
        have hd : ¬ d = '\n' := by
          intro hdeq
          rw [hdeq] at hb
          simp at hb
        rw [collapseGo_cons_notNl n b2 hd, hnl (d :: b2),
          collapseGo_cons_notNl 0 b2 hd]
        simp [nlRunOut, hmn, List.replicate_succ, List.replicate_zero]
    rcases List.eq_nil_or_concat a with rfl | ⟨a0, c, rfl⟩
    · simp only [List.nil_append]
      rw [hnl, collapseGo_replicate k 0 b, hbpart (0 + k) (by omega), hnil]
      simp
    · have hc : ¬ c = '\n' := by
        intro hceq
        rw [List.concat_eq_append, List.getLast?_append, hceq] at ha
        simp at ha
      rw [List.concat_eq_append] at ha ⊢
      have hassoc : (a0 ++ [c]) ++ List.replicate k '\n' ++ b
          = a0 ++ c :: (List.replicate k '\n' ++ b) := by
        simp [List.append_assoc]
      rw [hnl, hassoc, collapseGo_append_cons a0 0 c _ hc,
        collapseGo_replicate k 0 b, hbpart (0 + k) (by omega),
        ← hnl (a0 ++ [c])]
      simp [List.append_assoc]
  · intro stem mdRaw meta analysis metrics classify sections items h
    rw [buildRecordCore_ok stem mdRaw meta metrics classify h]
    rfl

/-- C8, witness for `c8_raw_markdown_collapse`: a run of five newlines
between `"a"` and `"b"` collapses to exactly one blank line, a body with a
two-newline run is unchanged, and the record field matches at a concrete
body. -/
theorem c8_raw_markdown_collapse_witness :
    ¬ (("x\n\ny".data : Str).getLast? = some '\n')
    ∧ collapseNl ("a".data ++ List.replicate 5 '\n' ++ "b".data) = "a\n\nb".data
    ∧ (¬ (['\n', '\n', '\n'] <:+: ("x\n\ny".data : Str)))
    ∧ collapseNl ("x\n\ny".data) = "x\n\ny".data
    ∧ pyIter (resolveSecList [] (.obj [])) = .ok []
    ∧ recField sRawMarkdown
        (buildRecordCore ("pg".data) ("a\n\n\n\n\nb".data) [] [] [] [] (.obj []))
        = some (.str (pyStrip (collapseNl ("a\n\n\n\n\nb".data)))) := by
  refine ⟨by decide, ?_, by decide, ?_, rfl, ?_⟩
  · exact (c8_raw_markdown_collapse.2.2.1 ("a".data) ("b".data) 5 (by omega)
      (by decide) (by decide)).trans (by rfl)
  · exact c8_raw_markdown_collapse.2.1 ("x\n\ny".data) (by decide)
  · exact c8_raw_markdown_collapse.2.2.2 ("pg".data) ("a\n\n\n\n\nb".data)
      [] [] [] [] (.obj []) [] rfl

/-! ### Decimal digits invert -/
theorem digitChar_isDigit {d : Nat} (h : d < 10) : (digitChar d).isDigit = true := by
  interval_cases d <;> decide

theorem digitChar_val {d : Nat} (h : d < 10) : (digitChar d).toNat - '0'.toNat = d := by
  interval_cases d <;> decide

theorem natDecGo_congr :
    ∀ f1 f2 n : Nat, n < f1 → n < f2 → natDecGo f1 n = natDecGo f2 n := by
  intro f1
  induction f1 with
  | zero => intro f2 n h1 _; omega
  | succ g ih =>
    intro f2 n h1 h2
    match f2 with
    | g2 + 1 =>
      by_cases h10 : n < 10
      · simp [natDecGo, h10]
      · simp only [natDecGo, h10, if_false]
        rw [ih g2 (n / 10) (by omega) (by omega)]

theorem natDec_eq (n : Nat) :
    natDec n = if n < 10 then [digitChar n]
               else natDec (n / 10) ++ [digitChar (n % 10)] := by
  show natDecGo (n + 1) n = _
  by_cases h : n < 10
  · simp [natDecGo, h]
  · simp only [natDecGo, h, if_false]
    rw [natDecGo_congr n (n / 10 + 1) (n / 10) (by omega) (by omega)]
    rfl

theorem natDec_digits (n : Nat) : ∀ c ∈ natDec n, c.isDigit = true := by
  induction n using Nat.strong_induction_on with
  | _ n ih =>
    rw [natDec_eq]
    by_cases h : n < 10
    · simp only [if_pos h, List.mem_singleton]
      rintro c rfl
      exact digitChar_isDigit h
    · simp only [if_neg h, List.mem_append, List.mem_singleton]
      rintro c (hc | rfl)
      · exact ih (n / 10) (by omega) c hc
      · exact digitChar_isDigit (Nat.mod_lt _ (by omega))

theorem natDec_ne_nil (n : Nat) : natDec n ≠ [] := by
  rw [natDec_eq]
  by_cases h : n < 10 <;> simp [h]

theorem natDec_head_digit (n : Nat) :
    ∃ c t, natDec n = c :: t ∧ c.isDigit = true := by
  match hd : natDec n with
  | [] => exact absurd hd (natDec_ne_nil n)
  | c :: t =>
    refine ⟨c, t, rfl, natDec_digits n c ?_⟩
    rw [hd]
    exact List.mem_cons_self c t

theorem digitsToNat_append_one (xs : Str) (d : Char) :
    digitsToNat (xs ++ [d]) = 10 * digitsToNat xs + (d.toNat - '0'.toNat) := by
  simp [digitsToNat, List.foldl_append]

theorem digitsToNat_natDec (n : Nat) : digitsToNat (natDec n) = n := by
  induction n using Nat.strong_induction_on with
  | _ n ih =>
    rw [natDec_eq]
    by_cases h : n < 10
    · simp only [if_pos h]
      show 10 * 0 + ((digitChar n).toNat - '0'.toNat) = n
      rw [digitChar_val h]
      omega
    · simp only [if_neg h]
      rw [digitsToNat_append_one, ih (n / 10) (by omega),
        digitChar_val (Nat.mod_lt _ (by omega))]
      omega

theorem noDigitHead_nil : NoDigitHead [] := by
  intro c hc
  simp at hc

theorem noDigitHead_cons {c : Char} (h : c.isDigit = false) (r : Str) :
    NoDigitHead (c :: r) := by
  intro d hd
  simp at hd
  rw [← hd]
  exact h

theorem takeDigits_exact {ds : Str} (hds : ∀ c ∈ ds, c.isDigit = true)
    {r : Str} (hr : NoDigitHead r) : takeDigits (ds ++ r) = (ds, r) := by
  induction ds with
  | nil =>
    match r with
    | [] => rfl
    | c :: r2 =>
      have : c.isDigit = false := hr c rfl
      simp [takeDigits, this]
  | cons c t ih =>
    have hc : c.isDigit = true := hds c (List.mem_cons_self c t)
    have ht := ih (fun x hx => hds x (List.mem_cons_of_mem c hx))
    simp [takeDigits, hc, ht]

theorem parseNum_intDec (i : Int) {r : Str} (hr : NoDigitHead r) :
    parseNum (intDec i ++ r) = some (.num i, r) := by
  by_cases hneg : i < 0
  · have hi : intDec i = '-' :: natDec i.natAbs := by simp [intDec, hneg]
    rw [hi]
    obtain ⟨c0, t0, hm, _⟩ := natDec_head_digit i.natAbs
    have htd : takeDigits (natDec i.natAbs ++ r) = (natDec i.natAbs, r) :=
      takeDigits_exact (natDec_digits _) hr
    simp only [List.cons_append, parseNum, if_pos rfl, htd]
    rw [hm]
    simp only []
    rw [← hm]
    have : -((digitsToNat (natDec i.natAbs) : Nat) : Int) = i := by
      rw [digitsToNat_natDec]
      omega
    simp [this]
  · have hi : intDec i = natDec i.natAbs := by simp [intDec, hneg]
    rw [hi]
    obtain ⟨c0, t0, hm, hc0⟩ := natDec_head_digit i.natAbs
    have hcm : ¬ c0 = '-' := by
      intro heq
      rw [heq] at hc0
      exact absurd hc0 (by decide)
    have htd : takeDigits (natDec i.natAbs ++ r) = (natDec i.natAbs, r) :=
      takeDigits_exact (natDec_digits _) hr
    rw [hm, List.cons_append, parseNum, if_neg hcm, ← List.cons_append, ← hm, htd]
    rw [hm]
    simp only []
    rw [← hm]
    have : ((digitsToNat (natDec i.natAbs) : Nat) : Int) = i := by
      rw [digitsToNat_natDec]
      omega
    simp [this]

/-! ### String escaping inverts -/
theorem hexVal_hexDig {d : Nat} (h : d < 16) : hexVal (hexDig d) = some d := by
  interval_cases d <;> decide

theorem parseStrBody_escChar (c : Char) (z : Str) :
    parseStrBody (escChar c ++ z)
      = (parseStrBody z).map (fun p => (c :: p.1, p.2)) := by
  by_cases h1 : c = '"'
  · subst h1; rfl
  · by_cases h2 : c = '\\'
    · subst h2; rfl
    · by_cases h3 : c = '\n'
      · subst h3; rfl
      · by_cases h4 : c = '\t'
        · subst h4; rfl
        · by_cases h5 : c = '\r'
          · subst h5; rfl
          · by_cases h6 : c = '\x08'
            · subst h6; rfl
            · by_cases h7 : c = '\x0c'
              · subst h7; rfl
              · by_cases h8 : c.toNat < 32
                · have hesc : escChar c
                      = ['\\', 'u', '0', '0', hexDig (c.toNat / 16), hexDig (c.toNat % 16)] := by
                    simp [escChar, h1, h2, h3, h4, h5, h6, h7, h8]
                  rw [hesc]
                  show (match hexVal '0', hexVal '0',
                      hexVal (hexDig (c.toNat / 16)), hexVal (hexDig (c.toNat % 16)) with
                    | some a, some b, some c2, some d =>
                      (parseStrBody z).map (fun p : Str × Str =>
                        (Char.ofNat (((a * 16 + b) * 16 + c2) * 16 + d) :: p.1, p.2))
                    | _, _, _, _ => none) = _
                  rw [hexVal_hexDig (by omega), hexVal_hexDig (by omega)]
                  show (parseStrBody z).map (fun p : Str × Str =>
                      (Char.ofNat (((0 * 16 + 0) * 16 + c.toNat / 16) * 16 + c.toNat % 16)
                        :: p.1, p.2)) = _
                  have harith : ((0 * 16 + 0) * 16 + c.toNat / 16) * 16 + c.toNat % 16
                      = c.toNat := by omega
                  rw [harith, Char.ofNat_toNat]
                · have hesc : escChar c = [c] := by
                    simp [escChar, h1, h2, h3, h4, h5, h6, h7, h8]
                  rw [hesc]
                  show parseStrBody (c :: z) = _
                  match z, h1, h2 with
                  | [], h1, h2 => simp [parseStrBody, h1, h2]
                  | z1 :: z2, h1, h2 =>
                    conv =>
                      lhs
                      rw [parseStrBody.eq_def]
                    split
                    · rename_i heq
                      rw [List.cons.injEq] at heq
                      exact absurd heq.1 h1
                    · rename_i heq
                      rw [List.cons.injEq] at heq
                      exact absurd heq.1 h2
                    · rename_i heq
                      rw [List.cons.injEq] at heq
                      exact absurd heq.1 h2
                    · rename_i heq
                      rw [List.cons.injEq] at heq
                      obtain ⟨he1, he2⟩ := heq
                      subst he1
                      subst he2
                      simp [h2]
                    · rename_i hne
                      simp at hne

theorem parseStrBody_escape (s : Str) (r : Str) :
    parseStrBody (escape s ++ '"' :: r) = some (s, r) := by
  induction s with
  | nil => rfl
  | cons c t ih =>
    have : escape (c :: t) = escChar c ++ escape t := by
      simp [escape]
    rw [this, List.append_assoc, parseStrBody_escChar, ih]
    rfl

theorem allWS_nil : AllWS [] := by
  intro c hc
  simp at hc

theorem allWS_space : AllWS [' '] := by
  intro c hc
  simp at hc
  rw [hc]
  rfl

theorem skipWs_append {w : Str} (hw : AllWS w) (z : Str) :
    skipWs (w ++ z) = skipWs z := by
  induction w with
  | nil => rfl
  | cons c t ih =>
    have hc : isJsonWs c = true := hw c (List.mem_cons_self c t)
    have ht := ih (fun x hx => hw x (List.mem_cons_of_mem c hx))
    simp [skipWs, hc, ht]

theorem skipWs_cons_notWs {c : Char} (h : isJsonWs c = false) (z : Str) :
    skipWs (c :: z) = c :: z := by
  simp [skipWs, h]

theorem isDigit_side {c : Char} (h : c.isDigit = true) :
    isJsonWs c = false ∧ c ≠ ']' ∧ c ≠ '-' ∧ c ≠ '\x7d' ∧ c ≠ 'n' ∧ c ≠ 't'
      ∧ c ≠ 'f' ∧ c ≠ '"' ∧ c ≠ '[' ∧ c ≠ '\x7b' := by
  have k : ∀ d : Char, d.isDigit = false → c ≠ d := by
    intro d hd heq
    rw [heq, hd] at h
    exact Bool.false_ne_true h
  refine ⟨?_, k _ (by decide), k _ (by decide), k _ (by decide), k _ (by decide),
    k _ (by decide), k _ (by decide), k _ (by decide), k _ (by decide), k _ (by decide)⟩
  cases hws : isJsonWs c with
  | false => rfl
  | true =>
    exfalso
    simp only [isJsonWs, Bool.or_eq_true, decide_eq_true_eq] at hws
    rcases hws with ((rfl | rfl) | rfl) | rfl <;> exact absurd h (by decide)

theorem jval_ind (P : JVal → Prop) (hnull : P .null) (hbool : ∀ b, P (.bool b))
    (hnum : ∀ n, P (.num n)) (hstr : ∀ s, P (.str s))
    (harr : ∀ xs, (∀ x ∈ xs, P x) → P (.arr xs))
    (hobj : ∀ kvs, (∀ kv ∈ kvs, P kv.2) → P (.obj kvs)) : ∀ v, P v
  | .null => hnull
  | .bool b => hbool b
  | .num n => hnum n
  | .str s => hstr s
  | .arr xs => harr xs (fun x hx =>
      jval_ind P hnull hbool hnum hstr harr hobj x)
  | .obj kvs => hobj kvs (fun kv hkv =>
      jval_ind P hnull hbool hnum hstr harr hobj kv.2)
termination_by v => sizeOf v
decreasing_by
  · have h1 := List.sizeOf_lt_of_mem hx
    have h2 := JVal.arr.sizeOf_spec xs
    omega
  · have h1 := List.sizeOf_lt_of_mem hkv
    have h2 := JVal.obj.sizeOf_spec kvs
    have h3 : sizeOf kv.2 < sizeOf kv := by
      obtain ⟨k, v⟩ := kv
      have h4 := Prod.mk.sizeOf_spec k v
      have h5 : sizeOf ((k, v) : Str × JVal).2 = sizeOf v := rfl
      omega
    omega

theorem intDec_head (i : Int) :
    ∃ c t, intDec i = c :: t ∧ (c = '-' ∨ c.isDigit = true) := by
  by_cases hneg : i < 0
  · exact ⟨'-', natDec i.natAbs, by simp [intDec, hneg], Or.inl rfl⟩
  · obtain ⟨c0, t0, hm, hc0⟩ := natDec_head_digit i.natAbs
    exact ⟨c0, t0, by simp [intDec, hneg, hm], Or.inr hc0⟩

theorem dumps_head (v : JVal) :
    ∃ c t, dumps v = c :: t ∧ isJsonWs c = false ∧ c ≠ ']' ∧ c ≠ '\x7d' := by
  cases v with
  | null => exact ⟨'n', ['u', 'l', 'l'], rfl, by decide, by decide, by decide⟩
  | bool b =>
    cases b with
    | true => exact ⟨'t', ['r', 'u', 'e'], rfl, by decide, by decide, by decide⟩
    | false => exact ⟨'f', ['a', 'l', 's', 'e'], rfl, by decide, by decide, by decide⟩
  | num i =>
    obtain ⟨c, t, hm, hc⟩ := intDec_head i
    refine ⟨c, t, hm, ?_, ?_, ?_⟩
    · rcases hc with rfl | hd
      · decide
      · exact (isDigit_side hd).1
    · rcases hc with rfl | hd
      · decide
      · exact (isDigit_side hd).2.1
    · rcases hc with rfl | hd
      · decide
      · exact (isDigit_side hd).2.2.2.1
  | str s => exact ⟨'"', escape s ++ ['"'], rfl, by decide, by decide, by decide⟩
  | arr xs => exact ⟨'[', dumpsElems xs ++ [']'], rfl, by decide, by decide, by decide⟩
  | obj kvs => exact ⟨'\x7b', dumpsEntries kvs ++ ['\x7d'], rfl, by decide, by decide, by decide⟩

theorem jsize_le_length : ∀ v, jsize v ≤ (dumps v).length := by
  refine jval_ind (fun v => jsize v ≤ (dumps v).length) ?_ ?_ ?_ ?_ ?_ ?_
  · decide
  · intro b
    cases b <;> decide
  · intro i
    obtain ⟨c, t, hm, _⟩ := intDec_head i
    show 1 ≤ (intDec i).length
    rw [hm]
    simp
  · intro s
    show 1 ≤ ('"' :: (escape s ++ ['"'])).length
    simp
  · intro xs hxs
    have helems : ∀ ys : List JVal, (∀ x ∈ ys, jsize x ≤ (dumps x).length) →
        jsizeElems ys ≤ (dumpsElems ys).length + 1 := by
      intro ys
      induction ys with
      | nil => intro _; simp [jsizeElems, dumpsElems]
      | cons x t ih =>
        intro hall
        have hx := hall x (List.mem_cons_self x t)
        have ht := ih (fun y hy => hall y (List.mem_cons_of_mem x hy))
        match t with
        | [] =>
          show 1 + jsize x + 0 ≤ (dumps x ++ []).length + 1
          simp only [List.append_nil]
          omega
        | y :: t2 =>
          show 1 + jsize x + jsizeElems (y :: t2)
            ≤ (dumps x ++ ',' :: ' ' :: dumpsElems (y :: t2)).length + 1
          simp only [List.length_append, List.length_cons]
          omega
    have := helems xs hxs
    show 1 + jsizeElems xs ≤ ('[' :: (dumpsElems xs ++ [']'])).length
    simp only [List.length_cons, List.length_append, List.length_singleton]
    omega
  · intro kvs hkvs
    have hentries : ∀ ys : List (Str × JVal), (∀ kv ∈ ys, jsize kv.2 ≤ (dumps kv.2).length) →
        jsizeEntries ys ≤ (dumpsEntries ys).length + 1 := by
      intro ys
      induction ys with
      | nil => intro _; simp [jsizeEntries, dumpsEntries]
      | cons kv t ih =>
        intro hall
        have ht := ih (fun y hy => hall y (List.mem_cons_of_mem kv hy))
        obtain ⟨k, v⟩ := kv
        have hx : jsize v ≤ (dumps v).length := hall (k, v) (List.mem_cons_self (k, v) t)
        match t with
        | [] =>
          show 1 + jsize v + 0
            ≤ ('"' :: (escape k ++ ['"']) ++ ':' :: ' ' :: dumps v ++ []).length + 1
          simp only [List.append_nil, List.length_append, List.length_cons]
          omega
        | y :: t2 =>
          show 1 + jsize v + jsizeEntries (y :: t2)
            ≤ ('"' :: (escape k ++ ['"']) ++ ':' :: ' ' :: dumps v
                ++ ',' :: ' ' :: dumpsEntries (y :: t2)).length + 1
          simp only [List.length_append, List.length_cons]
          omega
    have := hentries kvs hkvs
    show 1 + jsizeEntries kvs ≤ ('\x7b' :: (dumpsEntries kvs ++ ['\x7d'])).length
    simp only [List.length_cons, List.length_append, List.length_singleton]
    omega

theorem parsesBack_num (i : Int) : ParsesBack (.num i) := by
  intro fuel w r hs hw hr
  match fuel with
  | f + 1 =>
    obtain ⟨c, t, hm, hc⟩ := intDec_head i
    have hws : isJsonWs c = false := by
      rcases hc with rfl | hd
      · decide
      · exact (isDigit_side hd).1
    have hshape : (dumps (.num i) ++ r : Str) = c :: (t ++ r) := by
      show intDec i ++ r = _
      rw [hm]
      rfl
    rw [hshape]
    show (match skipWs (w ++ (c :: (t ++ r))) with
      | 'n' :: 'u' :: 'l' :: 'l' :: r => some (JVal.null, r)
      | 't' :: 'r' :: 'u' :: 'e' :: r => some (JVal.bool true, r)
      | 'f' :: 'a' :: 'l' :: 's' :: 'e' :: r => some (JVal.bool false, r)
      | '"' :: r => (parseStrBody r).map (fun p => (JVal.str p.1, p.2))
      | '[' :: r =>
        (match skipWs r with
         | ']' :: r2 => some (JVal.arr [], r2)
         | _ => (parseElems f r).map (fun p => (JVal.arr p.1, p.2)))
      | '\x7b' :: r =>
        (match skipWs r with
         | '\x7d' :: r2 => some (JVal.obj [], r2)
         | _ => (parseEntries f r).map (fun p => (JVal.obj p.1, p.2)))
      | c :: r => if c = '-' || c.isDigit then parseNum (c :: r) else none
      | [] => none) = some (JVal.num i, r)
    rw [skipWs_append hw, skipWs_cons_notWs hws]
    have hnum : (c = '-' || c.isDigit) = true := by
      rcases hc with rfl | hd
      · decide
      · simp [hd]
    have hn : c ≠ 'n' := by
      rcases hc with rfl | hd
      · decide
      · exact (isDigit_side hd).2.2.2.2.1
    have ht' : c ≠ 't' := by
      rcases hc with rfl | hd
      · decide
      · exact (isDigit_side hd).2.2.2.2.2.1
    have hf : c ≠ 'f' := by
      rcases hc with rfl | hd
      · decide
      · exact (isDigit_side hd).2.2.2.2.2.2.1
    have hq : c ≠ '"' := by
      rcases hc with rfl | hd
      · decide
      · exact (isDigit_side hd).2.2.2.2.2.2.2.1
    have hbk : c ≠ '[' := by
      rcases hc with rfl | hd
      · decide
      · exact (isDigit_side hd).2.2.2.2.2.2.2.2.1
    have hbc : c ≠ '\x7b' := by
      rcases hc with rfl | hd
      · decide
      · exact (isDigit_side hd).2.2.2.2.2.2.2.2.2
    have hback : (c :: (t ++ r) : Str) = intDec i ++ r := by
      rw [hm]
      rfl
    split
    · rename_i heq
      simp only [List.cons.injEq] at heq
      exact absurd heq.1 hn
    · rename_i heq
      simp only [List.cons.injEq] at heq
      exact absurd heq.1 ht'
    · rename_i heq
      simp only [List.cons.injEq] at heq
      exact absurd heq.1 hf
    · rename_i heq
      simp only [List.cons.injEq] at heq
      exact absurd heq.1 hq
    · rename_i heq
      simp only [List.cons.injEq] at heq
      exact absurd heq.1 hbk
    · rename_i heq
      simp only [List.cons.injEq] at heq
      exact absurd heq.1 hbc
    · rename_i c2 r2 heq
      simp only [List.cons.injEq] at heq
      obtain ⟨h1, h2⟩ := heq
      subst h1
      subst h2
      simp only [hnum, if_true]
      rw [hback]
      exact parseNum_intDec i hr
    · rename_i heq
      exact absurd heq (by simp)

theorem parsesBack_elems (xs : List JVal) (hall : ∀ x ∈ xs, ParsesBack x)
    (hne : xs ≠ []) :
    ∀ fuel w r, jsizeElems xs ≤ fuel → AllWS w →
      parseElems fuel (w ++ (dumpsElems xs ++ (']' :: r))) = some (xs, r) := by
  induction xs with
  | nil => exact absurd rfl hne
  | cons x t ih =>
    intro fuel w r hs hw
    have hx : ParsesBack x := hall x (List.mem_cons_self x t)
    have hsz : jsizeElems (x :: t) = 1 + jsize x + jsizeElems t := rfl
    obtain ⟨f, rfl⟩ : ∃ f, fuel = f + 1 := ⟨fuel - 1, by omega⟩
    have hsx : jsize x ≤ f := by omega
    match t with
    | [] =>
      have hshape : (dumpsElems [x] ++ (']' :: r) : Str) = dumps x ++ (']' :: r) := by
        show (dumps x ++ []) ++ (']' :: r) = _
        rw [List.append_nil]
      rw [hshape]
      show (match parseVal f (w ++ (dumps x ++ (']' :: r))) with
        | none => none
        | some (v, r1) =>
          match skipWs r1 with
          | ',' :: r2 => (parseElems f r2).map (fun p => (v :: p.1, p.2))
          | ']' :: r2 => some ([v], r2)
          | _ => none) = some ([x], r)
      rw [hx f w (']' :: r) hsx hw (noDigitHead_cons (by decide) r)]
      rfl
    | y :: t2 =>
      have hshape : (dumpsElems (x :: y :: t2) ++ (']' :: r) : Str)
          = dumps x ++ (',' :: ' ' :: (dumpsElems (y :: t2) ++ (']' :: r))) := by
        show (dumps x ++ ',' :: ' ' :: dumpsElems (y :: t2)) ++ (']' :: r) = _
        simp
      rw [hshape]
      show (match parseVal f (w ++ (dumps x
              ++ (',' :: ' ' :: (dumpsElems (y :: t2) ++ (']' :: r))))) with
        | none => none
        | some (v, r1) =>
          match skipWs r1 with
          | ',' :: r2 => (parseElems f r2).map (fun p => (v :: p.1, p.2))
          | ']' :: r2 => some ([v], r2)
          | _ => none) = some (x :: y :: t2, r)
      rw [hx f w _ hsx hw (noDigitHead_cons (by decide) _)]
      show (match skipWs (',' :: ' ' :: (dumpsElems (y :: t2) ++ (']' :: r))) with
        | ',' :: r2 => (parseElems f r2).map (fun p => (x :: p.1, p.2))
        | ']' :: r2 => some ([x], r2)
        | _ => none) = some (x :: y :: t2, r)
      rw [skipWs_cons_notWs (by decide)]
      have hrec := ih (fun z hz => hall z (List.mem_cons_of_mem x hz))
        (by simp) f [' '] r (by
          have h2 : jsizeElems (x :: y :: t2) = 1 + jsize x + jsizeElems (y :: t2) := rfl
          omega) allWS_space
      show (parseElems f (' ' :: (dumpsElems (y :: t2) ++ (']' :: r)))).map
          (fun p => (x :: p.1, p.2)) = some (x :: y :: t2, r)
      have hsp : (' ' :: (dumpsElems (y :: t2) ++ (']' :: r)) : Str)
          = [' '] ++ (dumpsElems (y :: t2) ++ (']' :: r)) := rfl
      rw [hsp, hrec]
      rfl

theorem parsesBack_entries (kvs : List (Str × JVal))
    (hall : ∀ kv ∈ kvs, ParsesBack kv.2) (hne : kvs ≠ []) :
    ∀ fuel w r, jsizeEntries kvs ≤ fuel → AllWS w →
      parseEntries fuel (w ++ (dumpsEntries kvs ++ ('\x7d' :: r))) = some (kvs, r) := by
  induction kvs with
  | nil => exact absurd rfl hne
  | cons kv t ih =>
    intro fuel w r hs hw
    obtain ⟨k, v⟩ := kv
    have hv : ParsesBack v := hall (k, v) (List.mem_cons_self (k, v) t)
    have hsz : jsizeEntries ((k, v) :: t) = 1 + jsize v + jsizeEntries t := rfl
    obtain ⟨f, rfl⟩ : ∃ f, fuel = f + 1 := ⟨fuel - 1, by omega⟩
    have hsv : jsize v ≤ f := by omega
    match t with
    | [] =>
      have hshape : (dumpsEntries [(k, v)] ++ ('\x7d' :: r) : Str)
          = '"' :: (escape k ++ ('"' :: (':' :: (' ' :: (dumps v ++ ('\x7d' :: r)))))) := by
        show ('"' :: (escape k ++ ['"']) ++ ':' :: ' ' :: dumps v ++ []) ++ ('\x7d' :: r) = _
        simp
      rw [hshape]
      show (match skipWs (w ++ ('"' :: (escape k
              ++ ('"' :: (':' :: (' ' :: (dumps v ++ ('\x7d' :: r)))))))) with
        | '"' :: r =>
          (match parseStrBody r with
           | none => none
           | some (k, r1) =>
             match skipWs r1 with
             | ':' :: r2 =>
               (match parseVal f r2 with
                | none => none
                | some (v, r3) =>
                  match skipWs r3 with
                  | ',' :: r4 => (parseEntries f r4).map (fun p => ((k, v) :: p.1, p.2))
                  | '\x7d' :: r4 => some ([(k, v)], r4)
                  | _ => none)
             | _ => none)
        | _ => none) = some ([(k, v)], r)
      rw [skipWs_append hw, skipWs_cons_notWs (by decide)]
      show (match parseStrBody (escape k ++ ('"' :: (':' :: (' ' :: (dumps v
              ++ ('\x7d' :: r)))))) with
        | none => none
        | some (k2, r1) =>
          match skipWs r1 with
          | ':' :: r2 =>
            (match parseVal f r2 with
             | none => none
             | some (v2, r3) =>
               match skipWs r3 with
               | ',' :: r4 => (parseEntries f r4).map (fun p => ((k2, v2) :: p.1, p.2))
               | '\x7d' :: r4 => some ([(k2, v2)], r4)
               | _ => none)
          | _ => none) = some ([(k, v)], r)
      rw [parseStrBody_escape]
      show (match skipWs (':' :: (' ' :: (dumps v ++ ('\x7d' :: r)))) with
        | ':' :: r2 =>
          (match parseVal f r2 with
           | none => none
           | some (v2, r3) =>
             match skipWs r3 with
             | ',' :: r4 => (parseEntries f r4).map (fun p => ((k, v2) :: p.1, p.2))
             | '\x7d' :: r4 => some ([(k, v2)], r4)
             | _ => none)
        | _ => none) = some ([(k, v)], r)
      rw [skipWs_cons_notWs (by decide)]
      have hvp : parseVal f (' ' :: (dumps v ++ ('\x7d' :: r))) = some (v, '\x7d' :: r) := by
        have hsp : (' ' :: (dumps v ++ ('\x7d' :: r)) : Str)
            = [' '] ++ (dumps v ++ ('\x7d' :: r)) := rfl
        rw [hsp]
        exact hv f [' '] _ hsv allWS_space (noDigitHead_cons (by decide) _)
      show (match parseVal f (' ' :: (dumps v ++ ('\x7d' :: r))) with
        | none => none
        | some (v2, r3) =>
          match skipWs r3 with
          | ',' :: r4 => (parseEntries f r4).map (fun p => ((k, v2) :: p.1, p.2))
          | '\x7d' :: r4 => some ([(k, v2)], r4)
          | _ => none) = some ([(k, v)], r)
      rw [hvp]
      show (match skipWs ('\x7d' :: r) with
        | ',' :: r4 => (parseEntries f r4).map (fun p => (((k, v) :: p.1 : List (Str × JVal)), p.2))
        | '\x7d' :: r4 => some ([(k, v)], r4)
        | _ => none) = some ([(k, v)], r)
      rw [skipWs_cons_notWs (by decide)]
      rfl
    | y :: t2 =>
      have hshape : (dumpsEntries ((k, v) :: y :: t2) ++ ('\x7d' :: r) : Str)
          = '"' :: (escape k ++ ('"' :: (':' :: (' ' :: (dumps v
              ++ (',' :: ' ' :: (dumpsEntries (y :: t2) ++ ('\x7d' :: r))))))))  := by
        show ('"' :: (escape k ++ ['"']) ++ ':' :: ' ' :: dumps v
            ++ ',' :: ' ' :: dumpsEntries (y :: t2)) ++ ('\x7d' :: r) = _
        simp
      rw [hshape]
      show (match skipWs (w ++ ('"' :: (escape k ++ ('"' :: (':' :: (' ' :: (dumps v
              ++ (',' :: ' ' :: (dumpsEntries (y :: t2) ++ ('\x7d' :: r)))))))))) with
        | '"' :: r =>
          (match parseStrBody r with
           | none => none
           | some (k, r1) =>
             match skipWs r1 with
             | ':' :: r2 =>
               (match parseVal f r2 with
                | none => none
                | some (v, r3) =>
                  match skipWs r3 with
                  | ',' :: r4 => (parseEntries f r4).map (fun p => ((k, v) :: p.1, p.2))
                  | '\x7d' :: r4 => some ([(k, v)], r4)
                  | _ => none)
             | _ => none)
        | _ => none) = some ((k, v) :: y :: t2, r)
      rw [skipWs_append hw, skipWs_cons_notWs (by decide)]
      show (match parseStrBody (escape k ++ ('"' :: (':' :: (' ' :: (dumps v
              ++ (',' :: ' ' :: (dumpsEntries (y :: t2) ++ ('\x7d' :: r)))))))) with
        | none => none
        | some (k2, r1) =>
          match skipWs r1 with
          | ':' :: r2 =>
            (match parseVal f r2 with
             | none => none
             | some (v2, r3) =>
               match skipWs r3 with
               | ',' :: r4 => (parseEntries f r4).map (fun p => ((k2, v2) :: p.1, p.2))
               | '\x7d' :: r4 => some ([(k2, v2)], r4)
               | _ => none)
          | _ => none) = some ((k, v) :: y :: t2, r)
      rw [parseStrBody_escape]
      show (match skipWs (':' :: (' ' :: (dumps v
              ++ (',' :: ' ' :: (dumpsEntries (y :: t2) ++ ('\x7d' :: r)))))) with
        | ':' :: r2 =>
          (match parseVal f r2 with
           | none => none
           | some (v2, r3) =>
             match skipWs r3 with
             | ',' :: r4 => (parseEntries f r4).map (fun p => ((k, v2) :: p.1, p.2))
             | '\x7d' :: r4 => some ([(k, v2)], r4)
             | _ => none)
        | _ => none) = some ((k, v) :: y :: t2, r)
      rw [skipWs_cons_notWs (by decide)]
      have hvp : parseVal f (' ' :: (dumps v
          ++ (',' :: ' ' :: (dumpsEntries (y :: t2) ++ ('\x7d' :: r)))))
          = some (v, ',' :: ' ' :: (dumpsEntries (y :: t2) ++ ('\x7d' :: r))) := by
        have hsp : (' ' :: (dumps v ++ (',' :: ' ' :: (dumpsEntries (y :: t2)
            ++ ('\x7d' :: r)))) : Str)
            = [' '] ++ (dumps v ++ (',' :: ' ' :: (dumpsEntries (y :: t2)
                ++ ('\x7d' :: r)))) := rfl
        rw [hsp]
        exact hv f [' '] _ hsv allWS_space (noDigitHead_cons (by decide) _)
      show (match parseVal f (' ' :: (dumps v
              ++ (',' :: ' ' :: (dumpsEntries (y :: t2) ++ ('\x7d' :: r))))) with
        | none => none
        | some (v2, r3) =>
          match skipWs r3 with
          | ',' :: r4 => (parseEntries f r4).map (fun p => ((k, v2) :: p.1, p.2))
          | '\x7d' :: r4 => some ([(k, v2)], r4)
          | _ => none) = some ((k, v) :: y :: t2, r)
      rw [hvp]
      show (match skipWs (',' :: ' ' :: (dumpsEntries (y :: t2) ++ ('\x7d' :: r))) with
        | ',' :: r4 => (parseEntries f r4).map (fun p => (((k, v) :: p.1 : List (Str × JVal)), p.2))
        | '\x7d' :: r4 => some ([(k, v)], r4)
        | _ => none) = some ((k, v) :: y :: t2, r)
      rw [skipWs_cons_notWs (by decide)]
      have hrec := ih (fun z hz => hall z (List.mem_cons_of_mem (k, v) hz))
        (by simp) f [' '] r (by
          have h2 : jsizeEntries ((k, v) :: y :: t2)
              = 1 + jsize v + jsizeEntries (y :: t2) := rfl
          omega) allWS_space
      show (parseEntries f (' ' :: (dumpsEntries (y :: t2) ++ ('\x7d' :: r)))).map
          (fun p => (((k, v) :: p.1 : List (Str × JVal)), p.2)) = some ((k, v) :: y :: t2, r)
      have hsp : (' ' :: (dumpsEntries (y :: t2) ++ ('\x7d' :: r)) : Str)
          = [' '] ++ (dumpsEntries (y :: t2) ++ ('\x7d' :: r)) := rfl
      rw [hsp, hrec]
      rfl

theorem parseVal_succ_eq (f : Nat) (s : Str) :
    parseVal (f + 1) s
      = (match skipWs s with
         | 'n' :: 'u' :: 'l' :: 'l' :: r => some (JVal.null, r)
         | 't' :: 'r' :: 'u' :: 'e' :: r => some (JVal.bool true, r)
         | 'f' :: 'a' :: 'l' :: 's' :: 'e' :: r => some (JVal.bool false, r)
         | '"' :: r => (parseStrBody r).map (fun p => (JVal.str p.1, p.2))
         | '[' :: r =>
           (match skipWs r with
            | ']' :: r2 => some (JVal.arr [], r2)
            | _ => (parseElems f r).map (fun p => (JVal.arr p.1, p.2)))
         | '\x7b' :: r =>
           (match skipWs r with
            | '\x7d' :: r2 => some (JVal.obj [], r2)
            | _ => (parseEntries f r).map (fun p => (JVal.obj p.1, p.2)))
         | c :: r => if c = '-' || c.isDigit then parseNum (c :: r) else none
         | [] => none) := rfl

theorem parsesBack_all : ∀ v, ParsesBack v := by
  refine jval_ind ParsesBack ?_ ?_ (fun i => parsesBack_num i) ?_ ?_ ?_
  · intro fuel w r hs hw _
    have h1 : jsize JVal.null = 1 := rfl
    obtain ⟨f, rfl⟩ : ∃ f, fuel = f + 1 := ⟨fuel - 1, by omega⟩
    have hshape : (dumps JVal.null ++ r : Str) = 'n' :: 'u' :: 'l' :: 'l' :: r := rfl
    rw [hshape, parseVal_succ_eq, skipWs_append hw, skipWs_cons_notWs (by decide)]
    rfl
  · intro b fuel w r hs hw _
    have h1 : jsize (JVal.bool b) = 1 := rfl
    obtain ⟨f, rfl⟩ : ∃ f, fuel = f + 1 := ⟨fuel - 1, by omega⟩
    cases b with
    | true =>
      have hshape : (dumps (JVal.bool true) ++ r : Str)
          = 't' :: 'r' :: 'u' :: 'e' :: r := rfl
      rw [hshape, parseVal_succ_eq, skipWs_append hw, skipWs_cons_notWs (by decide)]
      rfl
    | false =>
      have hshape : (dumps (JVal.bool false) ++ r : Str)
          = 'f' :: 'a' :: 'l' :: 's' :: 'e' :: r := rfl
      rw [hshape, parseVal_succ_eq, skipWs_append hw, skipWs_cons_notWs (by decide)]
      rfl
  · intro s fuel w r hs hw _
    have h1 : jsize (JVal.str s) = 1 := rfl
    obtain ⟨f, rfl⟩ : ∃ f, fuel = f + 1 := ⟨fuel - 1, by omega⟩
    have hshape : (dumps (JVal.str s) ++ r : Str) = '"' :: (escape s ++ ('"' :: r)) := by
      show ('"' :: (escape s ++ ['"'])) ++ r = _
      simp
    rw [hshape, parseVal_succ_eq, skipWs_append hw, skipWs_cons_notWs (by decide)]
    show (parseStrBody (escape s ++ ('"' :: r))).map (fun p => (JVal.str p.1, p.2))
        = some (JVal.str s, r)
    rw [parseStrBody_escape]
    rfl
  · intro xs hxs fuel w r hs hw _
    have h1 : jsize (JVal.arr xs) = 1 + jsizeElems xs := rfl
    obtain ⟨f, rfl⟩ : ∃ f, fuel = f + 1 := ⟨fuel - 1, by omega⟩
    match xs with
    | [] =>
      have hshape : (dumps (JVal.arr []) ++ r : Str) = '[' :: ']' :: r := rfl
      rw [hshape, parseVal_succ_eq, skipWs_append hw, skipWs_cons_notWs (by decide)]
      show (match skipWs (']' :: r) with
        | ']' :: r2 => some (JVal.arr [], r2)
        | _ => (parseElems f (']' :: r)).map (fun p => (JVal.arr p.1, p.2)))
          = some (JVal.arr [], r)
      rw [skipWs_cons_notWs (by decide)]
      rfl
    | x :: t =>
      have hshape : (dumps (JVal.arr (x :: t)) ++ r : Str)
          = '[' :: (dumpsElems (x :: t) ++ (']' :: r)) := by
        show ('[' :: (dumpsElems (x :: t) ++ [']'])) ++ r = _
        simp
      rw [hshape, parseVal_succ_eq, skipWs_append hw, skipWs_cons_notWs (by decide)]
      show (match skipWs (dumpsElems (x :: t) ++ (']' :: r)) with
        | ']' :: r2 => some (JVal.arr [], r2)
        | _ => (parseElems f (dumpsElems (x :: t) ++ (']' :: r))).map
            (fun p => (JVal.arr p.1, p.2))) = some (JVal.arr (x :: t), r)
      obtain ⟨rest, hre⟩ : ∃ rest, dumpsElems (x :: t) = dumps x ++ rest := ⟨_, rfl⟩
      obtain ⟨c, ct, hdx, hws, hbr, _⟩ := dumps_head x
      have hskip : skipWs (dumpsElems (x :: t) ++ (']' :: r))
          = dumpsElems (x :: t) ++ (']' :: r) := by
        rw [hre, hdx]
        simp only [List.cons_append, List.append_assoc]
        rw [skipWs_cons_notWs hws]
      rw [hskip]
      split
      · rename_i r2 heq
        rw [hre, hdx] at heq
        simp only [List.cons_append, List.cons.injEq] at heq
        exact absurd heq.1 hbr
      · have helems := parsesBack_elems (x :: t) hxs (by simp) f [] r (by
          have h2 : jsizeElems (x :: t) = 1 + jsize x + jsizeElems t := rfl
          omega) allWS_nil
        rw [List.nil_append] at helems
        rw [helems]
        rfl
  · intro kvs hkvs fuel w r hs hw _
    have h1 : jsize (JVal.obj kvs) = 1 + jsizeEntries kvs := rfl
    obtain ⟨f, rfl⟩ : ∃ f, fuel = f + 1 := ⟨fuel - 1, by omega⟩
    match kvs with
    | [] =>
      have hshape : (dumps (JVal.obj []) ++ r : Str) = '\x7b' :: '\x7d' :: r := rfl
      rw [hshape, parseVal_succ_eq, skipWs_append hw, skipWs_cons_notWs (by decide)]
      show (match skipWs ('\x7d' :: r) with
        | '\x7d' :: r2 => some (JVal.obj [], r2)
        | _ => (parseEntries f ('\x7d' :: r)).map (fun p => (JVal.obj p.1, p.2)))
          = some (JVal.obj [], r)
      rw [skipWs_cons_notWs (by decide)]
      rfl
    | kv :: t =>
      obtain ⟨k, v⟩ := kv
      have hshape : (dumps (JVal.obj ((k, v) :: t)) ++ r : Str)
          = '\x7b' :: (dumpsEntries ((k, v) :: t) ++ ('\x7d' :: r)) := by
        show ('\x7b' :: (dumpsEntries ((k, v) :: t) ++ ['\x7d'])) ++ r = _
        simp
      rw [hshape, parseVal_succ_eq, skipWs_append hw, skipWs_cons_notWs (by decide)]
      show (match skipWs (dumpsEntries ((k, v) :: t) ++ ('\x7d' :: r)) with
        | '\x7d' :: r2 => some (JVal.obj [], r2)
        | _ => (parseEntries f (dumpsEntries ((k, v) :: t) ++ ('\x7d' :: r))).map
            (fun p => (JVal.obj p.1, p.2))) = some (JVal.obj ((k, v) :: t), r)
      obtain ⟨rest, hre⟩ : ∃ rest, dumpsEntries ((k, v) :: t) = '"' :: rest := ⟨_, rfl⟩
      have hskip : skipWs (dumpsEntries ((k, v) :: t) ++ ('\x7d' :: r))
          = dumpsEntries ((k, v) :: t) ++ ('\x7d' :: r) := by
        rw [hre]
        simp only [List.cons_append]
        rw [skipWs_cons_notWs (by decide)]
      rw [hskip]
      split
      · rename_i r2 heq
        rw [hre] at heq
        simp only [List.cons_append, List.cons.injEq] at heq
        exact absurd heq.1 (by decide)
      · have hentries := parsesBack_entries ((k, v) :: t) hkvs (by simp) f [] r (by
          have h2 : jsizeEntries ((k, v) :: t) = 1 + jsize v + jsizeEntries t := rfl
          omega) allWS_nil
        rw [List.nil_append] at hentries
        rw [hentries]
        rfl

/-- The codec round trip: `json.loads` recovers every `json.dumps` output. -/
theorem loads_dumps (v : JVal) : loads (dumps v) = some v := by
  have h := parsesBack_all v ((dumps v).length + 1) [] []
    (by have := jsize_le_length v; omega) allWS_nil noDigitHead_nil
  rw [List.nil_append, List.append_nil] at h
  show (match parseVal ((dumps v).length + 1) (dumps v) with
    | some (v, r) => if (skipWs r).isEmpty then some v else none
    | none => none) = some v
  rw [h]
  rfl

/-! ### Serialized records never hold a raw newline -/
theorem hexDig_ne_nl {d : Nat} (h : d < 16) : hexDig d ≠ '\n' := by
  interval_cases d <;> decide

theorem nl_not_in_escChar (c : Char) : '\n' ∉ escChar c := by
  by_cases h1 : c = '"'
  · simp [escChar, h1]
  · by_cases h2 : c = '\\'
    · simp [escChar, h1, h2]
    · by_cases h3 : c = '\n'
      · simp [escChar, h1, h2, h3]
      · by_cases h4 : c = '\t'
        · simp [escChar, h1, h2, h3, h4]
        · by_cases h5 : c = '\r'
          · simp [escChar, h1, h2, h3, h4, h5]
          · by_cases h6 : c = '\x08'
            · simp [escChar, h1, h2, h3, h4, h5, h6]
            · by_cases h7 : c = '\x0c'
              · simp [escChar, h1, h2, h3, h4, h5, h6, h7]
              · by_cases h8 : c.toNat < 32
                · have he : escChar c = ['\\', 'u', '0', '0',
                      hexDig (c.toNat / 16), hexDig (c.toNat % 16)] := by
                    simp [escChar, h1, h2, h3, h4, h5, h6, h7, h8]
                  rw [he]
                  intro hmem
                  simp only [List.mem_cons, List.mem_singleton] at hmem
                  rcases hmem with h | h | h | h | h | h | h
                  · exact absurd h.symm (by decide)
                  · exact absurd h.symm (by decide)
                  · exact absurd h.symm (by decide)
                  · exact absurd h.symm (by decide)
                  · exact absurd h.symm (hexDig_ne_nl (by omega))
                  · exact absurd h.symm (hexDig_ne_nl (by omega))
                  · simp at h
                · have he : escChar c = [c] := by
                    simp [escChar, h1, h2, h3, h4, h5, h6, h7, h8]
                  rw [he]
                  intro hmem
                  simp only [List.mem_singleton] at hmem
                  rw [← hmem] at h8
                  exact h8 (by decide)

theorem nl_not_in_escape (s : Str) : '\n' ∉ escape s := by
  intro hmem
  simp only [escape, List.mem_flatten, List.mem_map] at hmem
  obtain ⟨chunk, ⟨c, _, rfl⟩, hin⟩ := hmem
  exact nl_not_in_escChar c hin

theorem nl_not_in_natDec (n : Nat) : '\n' ∉ natDec n := by
  intro hmem
  have := natDec_digits n '\n' hmem
  exact absurd this (by decide)

theorem nl_not_in_intDec (i : Int) : '\n' ∉ intDec i := by
  by_cases hneg : i < 0
  · have hi : intDec i = '-' :: natDec i.natAbs := by simp [intDec, hneg]
    rw [hi]
    intro hmem
    rcases List.mem_cons.mp hmem with h | h
    · exact absurd h (by decide)
    · exact nl_not_in_natDec _ h
  · have hi : intDec i = natDec i.natAbs := by simp [intDec, hneg]
    rw [hi]
    exact nl_not_in_natDec _

theorem dumps_no_nl : ∀ v, '\n' ∉ dumps v := by
  refine jval_ind (fun v => '\n' ∉ dumps v) ?_ ?_ ?_ ?_ ?_ ?_
  · decide
  · intro b
    cases b <;> decide
  · intro i
    exact nl_not_in_intDec i
  · intro s
    show '\n' ∉ '"' :: (escape s ++ ['"'])
    intro hmem
    rcases List.mem_cons.mp hmem with h | h
    · exact absurd h (by decide)
    · rcases List.mem_append.mp h with h | h
      · exact nl_not_in_escape s h
      · simp at h
  · intro xs hxs
    show '\n' ∉ '[' :: (dumpsElems xs ++ [']'])
    have helems : ∀ ys : List JVal, (∀ x ∈ ys, '\n' ∉ dumps x) → '\n' ∉ dumpsElems ys := by
      intro ys
      induction ys with
      | nil => intro _; simp [dumpsElems]
      | cons x t ih =>
        intro hall hmem
        have hx := hall x (List.mem_cons_self x t)
        have ht := ih (fun y hy => hall y (List.mem_cons_of_mem x hy))
        match t with
        | [] =>
          rw [show dumpsElems [x] = dumps x ++ [] from rfl, List.append_nil] at hmem
          exact hx hmem
        | y :: t2 =>
          rw [show dumpsElems (x :: y :: t2)
              = dumps x ++ ',' :: ' ' :: dumpsElems (y :: t2) from rfl] at hmem
          rcases List.mem_append.mp hmem with h | h
          · exact hx h
          · rcases List.mem_cons.mp h with h | h
            · exact absurd h (by decide)
            · rcases List.mem_cons.mp h with h | h
              · exact absurd h (by decide)
              · exact ht h
    intro hmem
    rcases List.mem_cons.mp hmem with h | h
    · exact absurd h (by decide)
    · rcases List.mem_append.mp h with h | h
      · exact helems xs hxs h
      · simp at h
  · intro kvs hkvs
    show '\n' ∉ '\x7b' :: (dumpsEntries kvs ++ ['\x7d'])
    have hentries : ∀ ys : List (Str × JVal), (∀ kv ∈ ys, '\n' ∉ dumps kv.2) →
        '\n' ∉ dumpsEntries ys := by
      intro ys
      induction ys with
      | nil => intro _; simp [dumpsEntries]
      | cons kv t ih =>
        intro hall hmem
        have ht := ih (fun y hy => hall y (List.mem_cons_of_mem kv hy))
        obtain ⟨k, v⟩ := kv
        have hv : '\n' ∉ dumps v := hall (k, v) (List.mem_cons_self (k, v) t)
        match t with
        | [] =>
          rw [show dumpsEntries [(k, v)]
              = '"' :: (escape k ++ ['"']) ++ ':' :: ' ' :: dumps v ++ [] from rfl] at hmem
          rw [List.append_nil] at hmem
          rcases List.mem_append.mp hmem with h | h
          · rcases List.mem_cons.mp h with h | h
            · exact absurd h (by decide)
            · rcases List.mem_append.mp h with h | h
              · exact nl_not_in_escape k h
              · simp at h
          · rcases List.mem_cons.mp h with h | h
            · exact absurd h (by decide)
            · rcases List.mem_cons.mp h with h | h
              · exact absurd h (by decide)
              · exact hv h
        | y :: t2 =>
          rw [show dumpsEntries ((k, v) :: y :: t2)
              = '"' :: (escape k ++ ['"']) ++ ':' :: ' ' :: dumps v
                ++ ',' :: ' ' :: dumpsEntries (y :: t2) from rfl] at hmem
          rcases List.mem_append.mp hmem with h | h
          · rcases List.mem_append.mp h with h | h
            · rcases List.mem_cons.mp h with h | h
              · exact absurd h (by decide)
              · rcases List.mem_append.mp h with h | h
                · exact nl_not_in_escape k h
                · simp at h
            · rcases List.mem_cons.mp h with h | h
              · exact absurd h (by decide)
              · rcases List.mem_cons.mp h with h | h
                · exact absurd h (by decide)
                · exact hv h
          · rcases List.mem_cons.mp h with h | h
            · exact absurd h (by decide)
            · rcases List.mem_cons.mp h with h | h
              · exact absurd h (by decide)
              · exact ht h
    intro hmem
    rcases List.mem_cons.mp hmem with h | h
    · exact absurd h (by decide)
    · rcases List.mem_append.mp h with h | h
      · exact hentries kvs hkvs h
      · simp at h

/-! ### Splitting the line-delimited aggregate -/
theorem splitOnChar_sep (c : Char) :
    ∀ x y : Str, c ∉ x → splitOnChar c (x ++ c :: y) = x :: splitOnChar c y := by
  intro x
  induction x with
  | nil =>
    intro y _
    simp [splitOnChar]
  | cons a t ih =>
    intro y hx
    have ha : ¬ a = c := by
      intro heq
      exact hx (heq ▸ List.mem_cons_self a t)
    have ht := ih y (fun hmem => hx (List.mem_cons_of_mem a hmem))
    simp only [List.cons_append, splitOnChar, ha, if_false, List.append_eq]
    rw [ht]

/-- C9.  The line-delimited aggregate round-trips: `write_site_jsonl` writes
one full serialized record per line in input order (splitting the file on
newlines recovers exactly the serialized records, in order), and
deserializing every line with `loads` reproduces the original record
sequence. -/
theorem c9_jsonl_roundtrip :
    ∀ records : List JVal,
      ((splitOnChar '\n' (writeSiteJsonl records)).dropLast = records.map dumps)
      ∧ ((splitOnChar '\n' (writeSiteJsonl records)).dropLast.map loads
          = records.map some) := by
  intro records
  have hlines : splitOnChar '\n' (writeSiteJsonl records)
      = records.map dumps ++ [[]] := by
    induction records with
    | nil => rfl
    | cons r t ih =>
      have hw : writeSiteJsonl (r :: t) = dumps r ++ '\n' :: writeSiteJsonl t := by
        show ((dumps r ++ ['\n']) :: t.map (fun x => dumps x ++ ['\n'])).flatten = _
        rw [List.flatten_cons]
        show (dumps r ++ ['\n']) ++ writeSiteJsonl t = _
        simp
      rw [hw, splitOnChar_sep '\n' (dumps r) _ (dumps_no_nl r), ih]
      simp
  have hdrop : (splitOnChar '\n' (writeSiteJsonl records)).dropLast
      = records.map dumps := by
    rw [hlines]
    simp
  refine ⟨hdrop, ?_⟩
  rw [hdrop, List.map_map]
  have : ∀ rs : List JVal, rs.map (loads ∘ dumps) = rs.map some := by
    intro rs
    induction rs with
    | nil => rfl
    | cons r t ih =>
      simp only [List.map_cons, Function.comp_apply, loads_dumps, ih]
  exact this records

/-! ## Claim C5: the artifact loader never raises -/
/-- C5, counterexample.  The claim extends the never-raises policy to every
file kind the spec lists (JSON, YAML, Markdown), so that one bad or absent
input file never aborts record construction; but `build_record` reads the
markdown body directly with `read_text`, so a missing markdown file raises
`FileNotFoundError` and aborts the record — while the same absent path as a
JSON artifact merely loads as the empty mapping. -/
theorem c5_markdown_read_raises_counterexample :
    buildRecord (fun _ => none) ("home".data) ("home.md".data) none noPaths
      = .error .fileNotFound
    ∧ loadJson (fun _ => none) ("home_analysis.json".data) = .obj [] :=
  ⟨rfl, rfl⟩

/-- C5, amended.  The JSON artifact loader `load_json` never raises: for
every path it returns the empty mapping on a missing file or on any parse
failure, and the parsed value on success (in particular it recovers whatever
`json.dumps` wrote), so a bad or absent JSON artifact never aborts record
construction; the markdown body, by contrast, is read outside the loader and
its absence does abort `build_record`. -/
theorem c5_load_json_total :
    (∀ fs : FS, ∀ p : Str, fs p = none → loadJson fs p = .obj [])
    ∧ (∀ fs : FS, ∀ p s, fs p = some s → loads s = none → loadJson fs p = .obj [])
    ∧ (∀ fs : FS, ∀ p s v, fs p = some s → loads s = some v → loadJson fs p = v)
    ∧ (∀ fs : FS, ∀ p v, fs p = some (dumps v) → loadJson fs p = v) := by
  refine ⟨?_, ?_, ?_, ?_⟩
  · intro fs p h
    simp [loadJson, h]
  · intro fs p s hs hparse
    simp [loadJson, hs, hparse]
  · intro fs p s v hs hparse
    simp [loadJson, hs, hparse]
  · intro fs p v hs
    simp [loadJson, hs, loads_dumps]

/-- C5, witness for `c5_load_json_total`: a malformed JSON file and a missing
file both load as the empty mapping; a well-formed file loads as its value. -/
theorem c5_load_json_total_witness :
    (fun p => if p = ("bad.json".data : Str) then some ("\x7bnot json".data) else none)
        ("bad.json".data) = some ("\x7bnot json".data)
    ∧ loads ("\x7bnot json".data) = none
    ∧ loadJson (fun p => if p = ("bad.json".data : Str)
        then some ("\x7bnot json".data) else none) ("bad.json".data) = .obj []
    ∧ loadJson (fun p => if p = ("bad.json".data : Str)
        then some ("\x7bnot json".data) else none) ("missing.json".data) = .obj []
    ∧ loadJson (fun p => if p = ("good.json".data : Str)
        then some (dumps (.obj [(sSeo, .num 5)])) else none) ("good.json".data)
      = .obj [(sSeo, .num 5)] := by
  refine ⟨rfl, rfl, ?_, ?_, ?_⟩
  · exact c5_load_json_total.2.1
      (fun p => if p = ("bad.json".data : Str) then some ("\x7bnot json".data) else none)
      ("bad.json".data) ("\x7bnot json".data) rfl rfl
  · exact c5_load_json_total.1
      (fun p => if p = ("bad.json".data : Str) then some ("\x7bnot json".data) else none)
      ("missing.json".data) rfl
  · exact c5_load_json_total.2.2.2
      (fun p => if p = ("good.json".data : Str)
        then some (dumps (.obj [(sSeo, .num 5)])) else none)
      ("good.json".data) (.obj [(sSeo, .num 5)]) rfl

/-! ## Claim C1: totality of the record's fields -/
theorem buildRecordCore_keys {stem mdRaw : Str} {meta analysis metrics classify : Dict}
    {sections : JVal} {r : Dict}
    (h : buildRecordCore stem mdRaw meta analysis metrics classify sections = .ok r) :
    r.map Prod.fst = recordKeys := by
  unfold buildRecordCore at h
  cases hit : pyIter (resolveSecList analysis sections) with
  | error e =>
    rw [hit] at h
    simp [Except.map] at h
  | ok items =>
    rw [hit] at h
    simp only [Except.map] at h
    have hr := Except.ok.inj h
    rw [← hr]
    rfl

/-- C1.  For every file system and every combination of present and absent
artifacts (including all JSON artifacts absent with only the markdown file
present), whenever `build_record` returns a record, that record carries
exactly the fifteen data-model fields `id, url, title, page_type, scores,
readability, structure, images, links, word_count, reading_time_minutes,
sections, raw_markdown, recommendations, related_pages`, in order — every
field present with a defined value, never unset. -/
theorem c1_record_totality :
    ∀ fs : FS, ∀ stem mdPath : Str, ∀ metaPath : Option Str, ∀ aps : ArtifactPaths,
    ∀ r : Dict, buildRecord fs stem mdPath metaPath aps = .ok r →
      r.map Prod.fst = recordKeys := by
  intro fs stem mdPath metaPath aps r h
  unfold buildRecord at h
  simp only [Bind.bind, Except.bind] at h
  split at h
  · exact Except.noConfusion h
  split at h
  · exact Except.noConfusion h
  split at h
  · exact Except.noConfusion h
  split at h
  · exact Except.noConfusion h
  split at h
  · exact Except.noConfusion h
  exact buildRecordCore_keys h

/-- C1, witness: a file system holding only the markdown file `home.md` (all
JSON artifacts absent) still yields a fully populated record. -/
theorem c1_record_totality_witness :
    recKeysOf (buildRecord
      (fun p => if p = ("home.md".data : Str) then some ("# Welcome".data) else none)
      ("home".data) ("home.md".data) none noPaths) = some recordKeys := by
  have hb : buildRecord
      (fun p => if p = ("home.md".data : Str) then some ("# Welcome".data) else none)
      ("home".data) ("home.md".data) none noPaths
      = .ok (recordOf ("home".data) ("# Welcome".data) [] [] [] [] (.obj []) []) := rfl
  have hk := c1_record_totality _ ("home".data) ("home.md".data) none noPaths _ hb
  rw [hb]
  show some ((recordOf ("home".data) ("# Welcome".data) [] [] [] [] (.obj []) []).map
      Prod.fst) = some recordKeys
  rw [hk]

/-! ### Placeholder-preservation lemmas for `replaceAll` -/
theorem braceFree_mem {k : Str} (h : braceFreeB k = true) {c : Char} (hc : c ∈ k) :
    c ≠ '\x7b' ∧ c ≠ '\x7d' := by
  unfold braceFreeB at h
  have h2 := List.all_eq_true.mp h c hc
  simp only [Bool.and_eq_true, bne_iff_ne] at h2
  exact h2

theorem isPrefixOf_eq_false_of_not_prefix {p s : Str} (h : ¬ p <+: s) :
    p.isPrefixOf s = false := by
  rw [Bool.eq_false_iff]
  intro hb
  exact h (List.isPrefixOf_iff_prefix.mp hb)

theorem not_prefix_of_head_ne {a b : Char} {as bs : Str} (h : a ≠ b) :
    ¬ (a :: as <+: b :: bs) := by
  rintro ⟨x, hx⟩
  simp only [List.cons_append, List.cons.injEq] at hx
  exact h hx.1

theorem not_prefix_of_second_ne {a a2 b b2 : Char} {as bs : Str} (h : a2 ≠ b2) :
    ¬ (a :: a2 :: as <+: b :: b2 :: bs) := by
  rintro ⟨x, hx⟩
  simp only [List.cons_append, List.cons.injEq] at hx
  exact h hx.2.1

theorem tok_isPrefixOf_cons_false (k2 : Str) (c : Char) (hc : c ≠ '\x7b') (t : Str) :
    (tok k2).isPrefixOf (c :: t) = false :=
  isPrefixOf_eq_false_of_not_prefix (by
    show ¬ ('\x7b' :: '\x7b' :: (k2 ++ ['\x7d', '\x7d']) <+: c :: t)
    exact not_prefix_of_head_ne (fun h => hc h.symm))

theorem tok_isPrefixOf_cons2_false (k2 : Str) (c c2 : Char) (hc2 : c2 ≠ '\x7b') (t : Str) :
    (tok k2).isPrefixOf (c :: c2 :: t) = false :=
  isPrefixOf_eq_false_of_not_prefix (by
    show ¬ ('\x7b' :: '\x7b' :: (k2 ++ ['\x7d', '\x7d']) <+: c :: c2 :: t)
    exact not_prefix_of_second_ne (fun h => hc2 h.symm))

theorem replaceAllGo_step_no (pat rep : Str) (f : Nat) (c : Char) (t : Str)
    (h : pat.isPrefixOf (c :: t) = false) :
    replaceAllGo (f + 1) pat rep (c :: t) = c :: replaceAllGo f pat rep t := by
  show (if pat.isPrefixOf (c :: t) = true then
      rep ++ replaceAllGo f pat rep ((c :: t).drop pat.length)
    else c :: replaceAllGo f pat rep t) = _
  rw [h]
  simp

theorem replaceAllGo_step_yes (pat rep : Str) (f : Nat) (c : Char) (t : Str)
    (h : pat.isPrefixOf (c :: t) = true) :
    replaceAllGo (f + 1) pat rep (c :: t)
      = rep ++ replaceAllGo f pat rep ((c :: t).drop pat.length) := by
  show (if pat.isPrefixOf (c :: t) = true then
      rep ++ replaceAllGo f pat rep ((c :: t).drop pat.length)
    else c :: replaceAllGo f pat rep t) = _
  rw [h]
  simp

theorem endsEq : ∀ (a b x y : Str), (∀ c ∈ a, c ≠ '\x7d') → (∀ c ∈ b, c ≠ '\x7d') →
    a ++ '\x7d' :: '\x7d' :: x = b ++ '\x7d' :: '\x7d' :: y → a = b
  | [], [], _, _, _, _, _ => rfl
  | [], d :: b', x, y, _, hb, h => by
    simp only [List.nil_append, List.cons_append, List.cons.injEq] at h
    exact absurd h.1.symm (hb d (by simp))
  | d :: a', [], x, y, ha, _, h => by
    simp only [List.nil_append, List.cons_append, List.cons.injEq] at h
    exact absurd h.1 (ha d (by simp))
  | d :: a', e :: b', x, y, ha, hb, h => by
    simp only [List.cons_append, List.cons.injEq] at h
    have hr := endsEq a' b' x y (fun c hc => ha c (by simp [hc]))
      (fun c hc => hb c (by simp [hc])) h.2
    rw [h.1, hr]

theorem tok_not_prefix_tok (k k2 : Str) (hbk : braceFreeB k = true)
    (hbk2 : braceFreeB k2 = true) (hne : k2 ≠ k) (w : Str) :
    ¬ (tok k2 <+: tok k ++ w) := by
  rintro ⟨x, hx⟩
  have hx' : k2 ++ '\x7d' :: '\x7d' :: x = k ++ '\x7d' :: '\x7d' :: w := by
    simp only [tok, List.cons_append, List.append_assoc, List.cons.injEq,
      true_and] at hx
    simpa using hx
  exact hne (endsEq k2 k x w (fun c hc => (braceFree_mem hbk2 hc).2)
    (fun c hc => (braceFree_mem hbk hc).2) hx')

theorem replaceAllGo_copy_tail (k2 : Str) (rep : Str) :
    ∀ (a : Str), (∀ c ∈ a, c ≠ '\x7b') → ∀ (F : Nat) (w : Str),
    replaceAllGo (a.length + 2 + F) (tok k2) rep (a ++ '\x7d' :: '\x7d' :: w)
      = a ++ '\x7d' :: '\x7d' :: replaceAllGo F (tok k2) rep w := by
  intro a
  induction a with
  | nil =>
    intro _ F w
    have hf : ([] : Str).length + 2 + F = (F + 1) + 1 := by
      simp only [List.length_nil]
      omega
    rw [hf]
    show replaceAllGo ((F + 1) + 1) (tok k2) rep ('\x7d' :: '\x7d' :: w) = _
    rw [replaceAllGo_step_no _ _ _ _ _ (tok_isPrefixOf_cons_false k2 '\x7d' (by decide) _),
      replaceAllGo_step_no _ _ _ _ _ (tok_isPrefixOf_cons_false k2 '\x7d' (by decide) _)]
    rfl
  | cons c a' ih =>
    intro ha F w
    have hf : (c :: a').length + 2 + F = (a'.length + 2 + F) + 1 := by
      simp only [List.length_cons]
      omega
    rw [hf]
    show replaceAllGo ((a'.length + 2 + F) + 1) (tok k2) rep
      (c :: (a' ++ '\x7d' :: '\x7d' :: w)) = _
    rw [replaceAllGo_step_no _ _ _ _ _
      (tok_isPrefixOf_cons_false k2 c (ha c (by simp)) _)]
    rw [ih (fun d hd => ha d (by simp [hd])) F w]
    rfl

theorem tok_isPrefixOf_brace_key_false (k2 k : Str) (hbk : braceFreeB k = true) (w : Str) :
    (tok k2).isPrefixOf ('\x7b' :: (k ++ '\x7d' :: '\x7d' :: w)) = false := by
  cases k with
  | nil => exact tok_isPrefixOf_cons2_false k2 '\x7b' '\x7d' (by decide) ('\x7d' :: w)
  | cons c k' =>
    exact tok_isPrefixOf_cons2_false k2 '\x7b' c (braceFree_mem hbk (by simp)).1
      (k' ++ '\x7d' :: '\x7d' :: w)

theorem replaceAllGo_copy_tok (k k2 : Str) (rep : Str) (hbk : braceFreeB k = true)
    (hbk2 : braceFreeB k2 = true) (hne : k2 ≠ k) (F : Nat) (w : Str) :
    replaceAllGo (k.length + 4 + F) (tok k2) rep (tok k ++ w)
      = tok k ++ replaceAllGo F (tok k2) rep w := by
  have h1 : (tok k2).isPrefixOf (tok k ++ w) = false :=
    isPrefixOf_eq_false_of_not_prefix (tok_not_prefix_tok k k2 hbk hbk2 hne w)
  have e1 : (tok k ++ w) = '\x7b' :: ('\x7b' :: (k ++ '\x7d' :: '\x7d' :: w)) := by
    simp [tok]
  rw [e1] at h1
  have hf : k.length + 4 + F = ((k.length + 2 + F) + 1) + 1 := by omega
  rw [hf, e1]
  rw [replaceAllGo_step_no _ _ _ _ _ h1]
  rw [replaceAllGo_step_no _ _ _ _ _ (tok_isPrefixOf_brace_key_false k2 k hbk w)]
  rw [replaceAllGo_copy_tail k2 rep k (fun c hc => (braceFree_mem hbk hc).1) F w]
  simp [tok]

theorem tok_prefix_split (k k2 : Str) (hbk2 : braceFreeB k2 = true)
    (u w : Str) (hu : u ≠ []) (hpre : tok k2 <+: u ++ (tok k ++ w)) :
    tok k2 <+: u := by
  obtain ⟨t, ht⟩ := hpre
  rcases List.append_eq_append_iff.mp ht with ⟨a', ha, _⟩ | ⟨q, hq, hr⟩
  · exact ⟨a', ha.symm⟩
  · cases q with
    | nil => exact ⟨[], by simp [hq]⟩
    | cons d q' =>
      exfalso
      cases u with
      | nil => exact hu rfl
      | cons e u₂ =>
        have hq' := hq
        simp only [tok, List.cons_append, List.cons.injEq] at hq'
        obtain ⟨he, hrest⟩ := hq'
        cases u₂ with
        | nil =>
          simp only [List.nil_append, List.cons.injEq] at hrest
          obtain ⟨hd, hq'eq⟩ := hrest
          have hr' : tok k ++ w = ('\x7b' :: (k2 ++ '\x7d' :: '\x7d' :: [])) ++ t := by
            rw [hr, ← hd, ← hq'eq]
          simp only [tok, List.cons_append, List.cons.injEq, List.append_assoc] at hr'
          have h3 := hr'.2
          cases k2 with
          | nil =>
            simp only [List.nil_append, List.cons.injEq] at h3
            exact absurd h3.1 (by decide)
          | cons c2 k2' =>
            simp only [List.cons_append, List.cons.injEq] at h3
            exact absurd h3.1.symm (braceFree_mem hbk2 (by simp)).1
        | cons e2 u₃ =>
          simp only [List.cons_append, List.cons.injEq] at hrest
          obtain ⟨he2, hmid⟩ := hrest
          have hdmem : d ∈ k2 ++ '\x7d' :: '\x7d' :: [] := by
            rw [hmid]
            simp
          have hdne : d ≠ '\x7b' := by
            rcases List.mem_append.mp hdmem with h | h
            · exact (braceFree_mem hbk2 h).1
            · simp only [List.mem_cons, List.not_mem_nil, or_false] at h
              rcases h with rfl | rfl <;> decide
          have hhd : '\x7b' = d := by
            have hr2 := hr
            simp only [tok, List.cons_append, List.cons.injEq] at hr2
            exact hr2.1
          exact hdne hhd.symm

theorem replaceAllGo_preserves (k k2 rep : Str) (hbk : braceFreeB k = true)
    (hbk2 : braceFreeB k2 = true) (hne : k2 ≠ k) :
    ∀ F s, s.length ≤ F → tok k <:+: s → tok k <:+: replaceAllGo F (tok k2) rep s := by
  intro F
  induction F with
  | zero => intro s hs hinf; exact hinf
  | succ F ih =>
    intro s hs hinf
    obtain ⟨u, w, rfl⟩ : ∃ u w, s = u ++ (tok k ++ w) := by
      obtain ⟨u, w, hu⟩ := hinf
      exact ⟨u, w, by rw [← hu, List.append_assoc]⟩
    cases u with
    | nil =>
      obtain ⟨F', hF⟩ : ∃ F', F + 1 = k.length + 4 + F' := by
        refine ⟨F + 1 - (k.length + 4), ?_⟩
        have hs' := hs
        simp only [List.nil_append, List.length_append, tok, List.length_cons] at hs'
        omega
      rw [hF]
      show tok k <:+: replaceAllGo (k.length + 4 + F') (tok k2) rep (tok k ++ w)
      rw [replaceAllGo_copy_tok k k2 rep hbk hbk2 hne F' w]
      exact ((List.prefix_append _ _).isInfix)
    | cons c u' =>
      by_cases hmatch : (tok k2).isPrefixOf (c :: (u' ++ (tok k ++ w))) = true
      · have hpre := List.isPrefixOf_iff_prefix.mp hmatch
        have hsplit := tok_prefix_split k k2 hbk2 (c :: u') w (by simp)
          (by exact hpre)
        obtain ⟨u'', hux⟩ := hsplit
        show tok k <:+: replaceAllGo (F + 1) (tok k2) rep (c :: (u' ++ (tok k ++ w)))
        rw [replaceAllGo_step_yes _ _ _ _ _ hmatch]
        have hdrop : ((c :: (u' ++ (tok k ++ w)))).drop (tok k2).length
            = u'' ++ (tok k ++ w) := by
          have hsh : (c :: (u' ++ (tok k ++ w))) = tok k2 ++ (u'' ++ (tok k ++ w)) := by
            have h0 : (c :: u') ++ (tok k ++ w) = (tok k2 ++ u'') ++ (tok k ++ w) := by
              rw [hux]
            simpa [List.append_assoc] using h0
          rw [hsh, List.drop_left]
        rw [hdrop]
        have hlen : (u'' ++ (tok k ++ w)).length ≤ F := by
          have h1 := congrArg List.length hux
          have hs' := hs
          simp only [List.length_append, List.length_cons, tok] at h1 hs' ⊢
          omega
        have hrec := ih (u'' ++ (tok k ++ w)) hlen
          ⟨u'', w, by rw [List.append_assoc]⟩
        obtain ⟨p, q, hpq⟩ := hrec
        exact ⟨rep ++ p, q, by rw [← hpq]; simp⟩
      · have hmatch' : (tok k2).isPrefixOf (c :: (u' ++ (tok k ++ w))) = false := by
          rw [Bool.eq_false_iff]
          exact hmatch
        show tok k <:+: replaceAllGo (F + 1) (tok k2) rep (c :: (u' ++ (tok k ++ w)))
        rw [replaceAllGo_step_no _ _ _ _ _ hmatch']
        have hrec := ih (u' ++ (tok k ++ w))
          (by
            have hs' := hs
            simp only [List.length_cons, List.length_append] at hs' ⊢
            omega)
          ⟨u', w, by rw [List.append_assoc]⟩
        obtain ⟨p, q, hpq⟩ := hrec
        exact ⟨c :: p, q, by rw [← hpq]; simp⟩

theorem replaceAll_preserves (k k2 rep : Str) (hbk : braceFreeB k = true)
    (hbk2 : braceFreeB k2 = true) (hne : k2 ≠ k) (s : Str) (h : tok k <:+: s) :
    tok k <:+: replaceAll s (tok k2) rep :=
  replaceAllGo_preserves k k2 rep hbk hbk2 hne (s.length + 1) s (by omega) h

theorem containsB_spec (pat s : Str) : containsB s pat = true ↔ pat <:+: s := by
  induction s with
  | nil =>
    constructor
    · intro h
      have hp : pat = [] := by
        cases pat with
        | nil => rfl
        | cons a b => simp [containsB, List.isEmpty] at h
      subst hp
      exact ⟨[], [], rfl⟩
    · rintro ⟨u, w, huw⟩
      have h1 := List.append_eq_nil.mp huw
      have h2 := List.append_eq_nil.mp h1.1
      rw [h2.2]
      rfl
  | cons c t ih =>
    show ((pat.isPrefixOf (c :: t) || containsB t pat) = true ↔ _)
    constructor
    · intro h
      rcases (Bool.or_eq_true _ _).mp h with h | h
      · exact (List.isPrefixOf_iff_prefix.mp h).isInfix
      · obtain ⟨p, q, hpq⟩ := ih.mp h
        exact ⟨c :: p, q, by rw [← hpq]; simp⟩
    · rintro ⟨u, w2, huw⟩
      cases u with
      | nil =>
        refine (Bool.or_eq_true _ _).mpr (Or.inl ?_)
        exact List.isPrefixOf_iff_prefix.mpr ⟨w2, by simpa using huw⟩
      | cons e u' =>
        refine (Bool.or_eq_true _ _).mpr (Or.inr ?_)
        simp only [List.cons_append, List.cons.injEq] at huw
        exact ih.mpr ⟨u', w2, huw.2⟩

theorem substConfig_preserves (k : Str) (hbk : braceFreeB k = true) :
    ∀ (cfg : List (Str × Str)) (t : Str),
      (∀ kv ∈ cfg, braceFreeB kv.1 = true ∧ kv.1 ≠ k) →
      tok k <:+: t → tok k <:+: substConfig t cfg := by
  intro cfg
  induction cfg with
  | nil => intro t _ h; exact h
  | cons kv cfg' ih =>
    intro t hall h
    show tok k <:+: substConfig (replaceAll t (tok kv.1) kv.2) cfg'
    exact ih _ (fun x hx => hall x (by simp [hx]))
      (replaceAll_preserves k kv.1 kv.2 hbk (hall kv (by simp)).1
        (hall kv (by simp)).2 t h)

theorem substContext_preserves (k : Str) (hbk : braceFreeB k = true) :
    ∀ (ctx : Dict) (t : Str),
      (∀ kv ∈ ctx, braceFreeB kv.1 = true ∧ kv.1 ≠ k) →
      tok k <:+: t → tok k <:+: substContext t ctx := by
  intro ctx
  induction ctx with
  | nil => intro t _ h; exact h
  | cons kv ctx' ih =>
    intro t hall h
    show tok k <:+: substContext (replaceAll t (tok kv.1) (ctxSubstVal kv.2)) ctx'
    exact ih _ (fun x hx => hall x (by simp [hx]))
      (replaceAll_preserves k kv.1 (ctxSubstVal kv.2) hbk (hall kv (by simp)).1
        (hall kv (by simp)).2 t h)

/-- C6, counterexample.  The claim asserts for every template and context
that an unresolved placeholder is left verbatim and no error is raised; but
when the substituted text carries a sections-loop trigger, `render` enters
the loop branch and iterates the context's `sections` value, which raises
`TypeError` on a non-iterable value — even though the template's
\x7b\x7btitle\x7d\x7d has no `title` key in the context. -/
theorem c6_loop_sections_raises_counterexample :
    containsB ("\x7b\x7btitle\x7d\x7d \x7b% for section in sections %\x7d".data)
      (tok ("title".data)) = true
    ∧ (∀ kv ∈ ([((sSections : Str), JVal.num 5)] : Dict), kv.1 ≠ ("title".data : Str))
    ∧ render [] ("\x7b\x7btitle\x7d\x7d \x7b% for section in sections %\x7d".data)
        [((sSections : Str), JVal.num 5)] = .error .typeError :=
  ⟨by decide, by decide, rfl⟩

/-- C6, amended.  Outside the sections-loop branch the best-effort policy
holds: when the substituted text contains neither the
\x7b\x7bsections\x7d\x7d token nor the loop header, `render` returns the
substituted text unchanged and raises nothing, and a placeholder token whose
brace-free key is bound by neither the configuration nor the context is
still present verbatim in it (two double-curly tokens with distinct
brace-free keys can never overlap, so `str.replace` passes over the unbound
token).  But when a sections trigger is present `render` enters the loop
branch, and an error raised while iterating the context's `sections` value
propagates — rendering is not error-free for every template and context. -/
theorem c6_unresolved_placeholder :
    (∀ (cfg : List (Str × Str)) (text : Str) (ctx : Dict) (k : Str),
      braceFreeB k = true →
      (∀ kv ∈ cfg, braceFreeB kv.1 = true ∧ kv.1 ≠ k) →
      (∀ kv ∈ ctx, braceFreeB kv.1 = true ∧ kv.1 ≠ k) →
      containsB text (tok k) = true →
      containsB (substContext (substConfig text cfg) ctx) (tok sSections) = false →
      containsB (substContext (substConfig text cfg) ctx) loopHeader = false →
      render cfg text ctx = .ok (substContext (substConfig text cfg) ctx)
      ∧ containsB (substContext (substConfig text cfg) ctx) (tok k) = true)
    ∧ (∀ (cfg : List (Str × Str)) (text : Str) (ctx : Dict) (e : PyErr),
      containsB (substContext (substConfig text cfg) ctx) loopHeader = true →
      pyIter (pyGetD ctx sSections (.arr [])) = .error e →
      render cfg text ctx = .error e) := by
  constructor
  · intro cfg text ctx k hk hcfg hctx hhas hsec hloop
    constructor
    · show (if (containsB (substContext (substConfig text cfg) ctx) (tok sSections)
          || containsB (substContext (substConfig text cfg) ctx) loopHeader) = true
        then _ else _) = _
      rw [hsec, hloop]
      rfl
    · exact (containsB_spec _ _).mpr
        (substContext_preserves k hk ctx _ hctx
          (substConfig_preserves k hk cfg text hcfg
            ((containsB_spec _ _).mp hhas)))
  · intro cfg text ctx e hloop hiter
    show (if (containsB (substContext (substConfig text cfg) ctx) (tok sSections)
        || containsB (substContext (substConfig text cfg) ctx) loopHeader) = true
      then _ else _) = (.error e : Except PyErr Str)
    rw [hloop, Bool.or_true, if_pos rfl, hiter]

/-- C6, witness: the no-trigger conjunct at the template "Hello
\x7b\x7btitle\x7d\x7d from \x7b\x7bbrand_name\x7d\x7d", and the
loop-branch-error conjunct at a template carrying the loop header with a
numeric `sections` value. -/
theorem c6_unresolved_placeholder_witness :
    braceFreeB ("title".data) = true
    ∧ containsB ("Hello \x7b\x7btitle\x7d\x7d from \x7b\x7bbrand_name\x7d\x7d".data)
        (tok ("title".data)) = true
    ∧ render [(("brand_name".data : Str), ("Acme".data : Str))]
        ("Hello \x7b\x7btitle\x7d\x7d from \x7b\x7bbrand_name\x7d\x7d".data)
        [(("id".data : Str), JVal.str ("home".data))]
        = .ok ("Hello \x7b\x7btitle\x7d\x7d from Acme".data)
    ∧ containsB ("Hello \x7b\x7btitle\x7d\x7d from Acme".data)
        (tok ("title".data)) = true
    ∧ pyIter (pyGetD [((sSections : Str), JVal.num 5)] sSections (.arr []))
        = .error .typeError
    ∧ render [] ("\x7b% for section in sections %\x7d".data)
        [((sSections : Str), JVal.num 5)] = .error .typeError := by
  refine ⟨by decide, by decide, ?_, by decide, rfl, ?_⟩
  · have h := c6_unresolved_placeholder.1
        [(("brand_name".data : Str), ("Acme".data : Str))]
        ("Hello \x7b\x7btitle\x7d\x7d from \x7b\x7bbrand_name\x7d\x7d".data)
        [(("id".data : Str), JVal.str ("home".data))] ("title".data)
        (by decide) (by decide) (by decide) (by decide) (by decide) (by decide)
    rw [h.1]
    rfl
  · exact c6_unresolved_placeholder.2 []
      ("\x7b% for section in sections %\x7d".data)
      [((sSections : Str), JVal.num 5)] .typeError (by decide) rfl

theorem mapM_ok_of_all (process : Str → Except PyErr Unit) :
    ∀ l : List Str, (∀ g ∈ l, process g = .ok ()) →
      ∃ rs, l.mapM process = .ok rs := by
  intro l
  induction l with
  | nil => exact fun _ => ⟨[], rfl⟩
  | cons g gs ih =>
    intro hall
    obtain ⟨rs, hrs⟩ := ih (fun x hx => hall x (by simp [hx]))
    refine ⟨() :: rs, ?_⟩
    rw [List.mapM_cons, hall g (by simp), hrs]
    rfl

/-- C7, counterexample.  The claim extends the fatal no-pages-found policy to
the packaging stage, but the packager's `main` has no emptiness check: with
zero discovered markdown files it builds zero records, writes an empty
site.jsonl, and terminates normally with exit status 0 instead of aborting
with a non-zero status. -/
theorem c7_packager_zero_pages_counterexample :
    packageMain (fun _ => none) [] = .ok ([], [], 0) := rfl

/-- C7, amended.  Only the generation driver treats an empty page set as
fatal: with zero discovered files it aborts with exit status 1, and with a
non-empty set whose per-file processing succeeds it exits 0.  The packaging
stage performs no such check: with zero discovered pages it succeeds with
exit status 0, producing an empty record list and an empty site.jsonl. -/
theorem c7_zero_pages_exit_status :
    (∀ process : Str → Except PyErr Unit, generateMain process [] = .ok 1)
    ∧ (∀ process : Str → Except PyErr Unit, ∀ f fs2,
        (∀ g ∈ f :: fs2, process g = .ok ()) →
        generateMain process (f :: fs2) = .ok 0)
    ∧ (∀ fs : FS, packageMain fs [] = .ok ([], [], 0)) := by
  refine ⟨fun process => rfl, ?_, fun fs => rfl⟩
  intro process f fs2 hall
  show (if (f :: fs2).isEmpty = true then (.ok 1 : Except PyErr Nat)
    else do
      let _ ← (f :: fs2).mapM process
      .ok 0) = .ok 0
  rw [if_neg (by simp)]
  obtain ⟨rs, hrs⟩ := mapM_ok_of_all process (f :: fs2) hall
  rw [hrs]
  rfl

/-- C7, witness for the amended theorem: the driver exits 1 on an empty file
list and 0 on a singleton whose processing succeeds; the packager exits 0 on
an empty page set. -/
theorem c7_zero_pages_exit_status_witness :
    generateMain (fun _ => .ok ()) [] = .ok 1
    ∧ generateMain (fun _ => .ok ()) ["home.md".data] = .ok 0
    ∧ packageMain (fun _ => none) [] = .ok ([], [], 0) :=
  ⟨c7_zero_pages_exit_status.1 (fun _ => .ok ()),
   c7_zero_pages_exit_status.2.1 (fun _ => .ok ()) ("home.md".data) []
     (fun _ _ => rfl),
   c7_zero_pages_exit_status.2.2 (fun _ => none)⟩

end SiteGen
